import Mathlib

set_option maxHeartbeats 1000000

namespace TgDl

/-
Shallow embedding of the task-queue core of the tg-downloader repository
(src/queue/mod.rs and src/db.rs).  In-memory HashMaps and SQL tables are
modelled as lists of entries with a key projection; the concurrent worker
loop is modelled as an explicit interleaving state machine whose events are
the suspension-point-delimited atomic sections of the Rust code.
-/

section KeyedList

variable {A : Type} {B : Type} [DecidableEq B]

/-- Lookup of the first element whose key equals k; models a keyed map lookup. -/
def findK (key : A → B) (l : List A) (k : B) : Option A :=
  l.find? (fun a => decide (key a = k))

/-- Remove every element whose key equals k; models HashMap remove and SQL delete by key. -/
def eraseK (key : A → B) (l : List A) (k : B) : List A :=
  l.filter (fun a => decide (key a ≠ k))

/-- Apply f to every element whose key equals k; models an in-place update of one entry. -/
def updK (key : A → B) (l : List A) (k : B) (f : A → A) : List A :=
  l.map (fun a => if key a = k then f a else a)

/-- The list of keys of the entries. -/
def keysK (key : A → B) (l : List A) : List B :=
  l.map key

end KeyedList

/-- Maximum number of concurrent tasks (MAX_CONCURRENT_TASKS, src/queue/mod.rs line 13). -/
def MAX_CONCURRENT_TASKS : Nat := 2

/-- TaskStatus from src/queue/mod.rs lines 96-106. -/
inductive TaskStatus where
  | queued (position : Nat)
  | processing
  | completed
  | failed (reason : String)
deriving DecidableEq

/-- True exactly on the Processing status. -/
def isProcessing : TaskStatus → Bool
  | TaskStatus.processing => true
  | _ => false

/-- True exactly on the terminal statuses Completed and Failed. -/
def isTerminal : TaskStatus → Bool
  | TaskStatus.completed => true
  | TaskStatus.failed _ => true
  | _ => false

/-- The identity of a submitted Task (struct Task, src/queue/mod.rs lines 86-93): the
UUID task id is abstracted to a Nat and the ChatId(i64) to an Int; the payload fields
(task_type, message_id, unique_file_id) play no role in the scheduling claims. -/
structure MTask where
  tid : Nat
  chat : Int
deriving DecidableEq

/-- Stage of one spawned per-task handler from run_worker (src/queue/mod.rs 535-576):
running process_task, or past the terminal-status write and durable-row delete and
inside the 60-second sleep that precedes the in-memory cleanup and the permit drop. -/
inductive HandlerStage where
  | running
  | grace
deriving DecidableEq

/-- Key projection for the status map entries. -/
def stKey : Nat × TaskStatus → Nat := fun p => p.1

/-- Key projection for the handler pool entries. -/
def hKey : MTask × HandlerStage → Nat := fun p => p.1.tid

/-- Key projection for the per-user task lists. -/
def uKey : Int × List Nat → Int := fun p => p.1

/-- user_tasks.entry(chat).or_insert_with(Vec::new).push(tid), from TaskQueue::submit. -/
def pushUser (l : List (Int × List Nat)) (chat : Int) (tid : Nat) : List (Int × List Nat) :=
  match findK uKey l chat with
  | some _ => updK uKey l chat (fun p => (p.1, p.2 ++ [tid]))
  | none => l ++ [(chat, [tid])]

/-- if let Some(tasks) = user_tasks.get_mut(chat) then tasks.retain(id != tid), from the
spawned handler cleanup in run_worker. -/
def removeUserTask (l : List (Int × List Nat)) (chat : Int) (tid : Nat) :
    List (Int × List Nat) :=
  updK uKey l chat (fun p => (p.1, p.2.filter (fun j => decide (j ≠ tid))))

/-- The task-id list the per-user map holds for a chat (empty when absent). -/
def userList (l : List (Int × List Nat)) (chat : Int) : List Nat :=
  ((findK uKey l chat).map (fun p => p.2)).getD []

/-- The in-memory state of TaskQueue (src/queue/mod.rs 117-134) relevant to scheduling:
the pending counter, the unbounded channel contents, the free semaphore permits, the
task_statuses map, the user_tasks map, the set of live spawned handlers (each holding
one permit), and the ids of the rows of the durable tasks table. -/
structure QueueState where
  pendingCount : Nat
  channel : List MTask
  permits : Nat
  statuses : List (Nat × TaskStatus)
  userTasks : List (Int × List Nat)
  handlers : List (MTask × HandlerStage)
  dbTasks : List Nat
deriving DecidableEq

/-- Freshness of the UUID generated by TaskId::new for a submission: a fresh id
collides with no id the process currently tracks anywhere. -/
def submitOk (s : QueueState) (t : MTask) : Bool :=
  decide (t.tid ∉ keysK stKey s.statuses) &&
  decide (t.tid ∉ s.channel.map MTask.tid) &&
  decide (t.tid ∉ keysK hKey s.handlers) &&
  decide (t.tid ∉ s.dbTasks)

/-- Terminal status computed from the process_task result in the spawned handler
(src/queue/mod.rs 544-553): Ok gives Completed, Err(e) gives Failed(e). -/
def resultStatus : Option String → TaskStatus
  | none => TaskStatus.completed
  | some m => TaskStatus.failed m

/-- Atomic sections of the queue, delimited by the await points of the Rust code. -/
inductive QEvent where
  | submit (t : MTask)
  | dispatch
  | finish (tid : Nat) (err : Option String)
  | graceDone (tid : Nat)
deriving DecidableEq

/-- One atomic section.  submit is TaskQueue::submit (lines 274-335): increment the
pending counter, record the Queued status and the per-user entry, insert the durable
row, push onto the channel, return the position.  dispatch is the head of run_worker
(lines 520-535): pop the channel, take a permit, decrement the pending counter, set
Processing, spawn a handler.  finish is the spawned handler completing process_task
(lines 536-558): write the terminal status, delete the durable row, enter the 60 s
sleep.  graceDone is the sleep elapsing (lines 560-575): drop the per-user entry and
the status entry, release the permit. -/
def stepQ (s : QueueState) (e : QEvent) : QueueState × Option Nat :=
  match e with
  | QEvent.submit t =>
    if submitOk s t then
      let pos := s.pendingCount + 1
      ({ s with
          pendingCount := pos,
          statuses := (t.tid, TaskStatus.queued pos) :: s.statuses,
          userTasks := pushUser s.userTasks t.chat t.tid,
          channel := s.channel ++ [t],
          dbTasks := t.tid :: s.dbTasks }, some pos)
    else (s, none)
  | QEvent.dispatch =>
    match s.channel, s.permits with
    | t :: rest, p + 1 =>
      ({ s with
          channel := rest,
          permits := p,
          pendingCount := s.pendingCount - 1,
          statuses := updK stKey s.statuses t.tid (fun q => (q.1, TaskStatus.processing)),
          handlers := (t, HandlerStage.running) :: s.handlers }, none)
    | _, _ => (s, none)
  | QEvent.finish tid err =>
    match findK hKey s.handlers tid with
    | some (_, HandlerStage.running) =>
      ({ s with
          statuses := updK stKey s.statuses tid (fun q => (q.1, resultStatus err)),
          dbTasks := s.dbTasks.filter (fun j => decide (j ≠ tid)),
          handlers := updK hKey s.handlers tid (fun q => (q.1, HandlerStage.grace)) }, none)
    | _ => (s, none)
  | QEvent.graceDone tid =>
    match findK hKey s.handlers tid with
    | some (t, HandlerStage.grace) =>
      ({ s with
          statuses := eraseK stKey s.statuses tid,
          userTasks := removeUserTask s.userTasks t.chat tid,
          handlers := eraseK hKey s.handlers tid,
          permits := s.permits + 1 }, none)
    | _ => (s, none)

/-- Queue state right after TaskQueue::new with an empty database: empty maps, zero
pending, all MAX_CONCURRENT_TASKS permits free. -/
def initQ : QueueState :=
  { pendingCount := 0, channel := [], permits := MAX_CONCURRENT_TASKS,
    statuses := [], userTasks := [], handlers := [], dbTasks := [] }

/-- Run a sequence of atomic sections from a state. -/
def runQ (s : QueueState) : List QEvent → QueueState
  | [] => s
  | e :: es => runQ (stepQ s e).1 es

/-- The positions returned by the accepted submit calls of a run, in order. -/
def submitPositions (s : QueueState) : List QEvent → List Nat
  | [] => []
  | e :: es => ((stepQ s e).2).toList ++ submitPositions (stepQ s e).1 es

/-- The in-memory status the task_statuses map records for a task id. -/
def statusOf (s : QueueState) (tid : Nat) : Option TaskStatus :=
  (findK stKey s.statuses tid).map Prod.snd

/-- Number of tasks whose in-memory status is Processing. -/
def countProcessing (s : QueueState) : Nat :=
  s.statuses.countP (fun p => isProcessing p.2)

/-- Number of spawned handlers currently inside the 60-second grace sleep. -/
def countGrace (s : QueueState) : Nat :=
  s.handlers.countP (fun p => decide (p.2 = HandlerStage.grace))

/-- Inductive invariant of the queue state machine. -/
structure Inv (s : QueueState) : Prop where
  permitsEq : s.permits + s.handlers.length = MAX_CONCURRENT_TASKS
  pendEq : s.pendingCount = s.channel.length
  ndCh : (s.channel.map MTask.tid).Nodup
  ndH : (keysK hKey s.handlers).Nodup
  ndSt : (keysK stKey s.statuses).Nodup
  disj : ∀ t ∈ s.channel, t.tid ∉ keysK hKey s.handlers
  chQueued : ∀ t ∈ s.channel,
    ∃ pos, findK stKey s.statuses t.tid = some (t.tid, TaskStatus.queued pos)
  hRun : ∀ p ∈ s.handlers, p.2 = HandlerStage.running →
    findK stKey s.statuses p.1.tid = some (p.1.tid, TaskStatus.processing)
  hGrace : ∀ p ∈ s.handlers, p.2 = HandlerStage.grace →
    ∃ st, findK stKey s.statuses p.1.tid = some (p.1.tid, st) ∧ isTerminal st = true
  countEq : countProcessing s
    = s.handlers.countP (fun p => decide (p.2 = HandlerStage.running))
  dbGrace : ∀ p ∈ s.handlers, p.2 = HandlerStage.grace → p.1.tid ∉ s.dbTasks
  hMem : ∀ p ∈ s.handlers, p.1.tid ∈ userList s.userTasks p.1.chat
  chMem : ∀ t ∈ s.channel, t.tid ∈ userList s.userTasks t.chat

/-- PendingDownload from src/queue/mod.rs lines 34-38. -/
structure PendingDownloadRec where
  url : String
  chat_id : Int
  message_id : Int
deriving DecidableEq

/-- PendingConversion from src/queue/mod.rs lines 42-47. -/
structure PendingConversionRec where
  filename : String
  thumbnail_path : Option String
  chat_id : Int
  message_id : Int
deriving DecidableEq

/-- Durable pending_downloads row (src/db.rs lines 60-82 and the schema). -/
structure PendingDownloadDbRow where
  short_id : String
  url : String
  chat_id : Int
  message_id : Int
  created_at : Int
deriving DecidableEq

/-- Durable pending_conversions row (src/db.rs lines 130-154 and the schema). -/
structure PendingConversionDbRow where
  short_id : String
  filename : String
  thumbnail_path : Option String
  chat_id : Int
  message_id : Int
  created_at : Int
deriving DecidableEq

/-- Key projection for string-keyed in-memory maps. -/
def sKey {X : Type} : String × X → String := fun p => p.1

/-- Key projection for the durable pending_downloads table. -/
def pdRowKey : PendingDownloadDbRow → String := fun r => r.short_id

/-- Key projection for the durable pending_conversions table. -/
def pcRowKey : PendingConversionDbRow → String := fun r => r.short_id

/-- HashMap::insert on a string-keyed assoc list: replaces any entry with the key. -/
def insertS {X : Type} (l : List (String × X)) (k : String) (v : X) : List (String × X) :=
  (k, v) :: eraseK sKey l k

/-- The pending-download selection registry: the durable pending_downloads table plus
the in-memory short_id keyed map of TaskQueue. -/
structure DownloadReg where
  store : List PendingDownloadDbRow
  mem : List (String × PendingDownloadRec)
deriving DecidableEq

/-- The pending-conversion selection registry. -/
structure ConversionReg where
  store : List PendingConversionDbRow
  mem : List (String × PendingConversionRec)
deriving DecidableEq

/-- TaskQueue::add_pending_download (src/queue/mod.rs 200-222).  sid is the freshly
generated ShortId, now the clock read inside insert_pending_download, dbOk whether the
durable INSERT succeeds; a failed INSERT is logged, never propagated, and the in-memory
insert still runs.  Returns the ShortId handed to the caller with the new state. -/
def addPendingDownload (reg : DownloadReg) (sid : String) (url : String)
    (chat : Int) (msg : Int) (now : Int) (dbOk : Bool) : String × DownloadReg :=
  let store := if dbOk
    then reg.store ++ [{ short_id := sid, url := url, chat_id := chat,
                         message_id := msg, created_at := now }]
    else reg.store
  (sid, { store := store, mem := insertS reg.mem sid ⟨url, chat, msg⟩ })

/-- TaskQueue::take_pending_download (src/queue/mod.rs 225-233): DELETE the durable row
(a failure is only logged), then remove and return the in-memory entry. -/
def takePendingDownload (reg : DownloadReg) (sid : String) (dbOk : Bool) :
    Option PendingDownloadRec × DownloadReg :=
  let store := if dbOk then eraseK pdRowKey reg.store sid else reg.store
  ((findK sKey reg.mem sid).map Prod.snd,
   { store := store, mem := eraseK sKey reg.mem sid })

/-- TaskQueue::add_pending_conversion (src/queue/mod.rs 236-260), mirror of
addPendingDownload for the conversion registry. -/
def addPendingConversion (reg : ConversionReg) (sid : String) (filename : String)
    (thumb : Option String) (chat : Int) (msg : Int) (now : Int) (dbOk : Bool) :
    String × ConversionReg :=
  let store := if dbOk
    then reg.store ++ [{ short_id := sid, filename := filename, thumbnail_path := thumb,
                         chat_id := chat, message_id := msg, created_at := now }]
    else reg.store
  (sid, { store := store, mem := insertS reg.mem sid ⟨filename, thumb, chat, msg⟩ })

/-- TaskQueue::take_pending_conversion (src/queue/mod.rs 263-271). -/
def takePendingConversion (reg : ConversionReg) (sid : String) (dbOk : Bool) :
    Option PendingConversionRec × ConversionReg :=
  let store := if dbOk then eraseK pcRowKey reg.store sid else reg.store
  ((findK sKey reg.mem sid).map Prod.snd,
   { store := store, mem := eraseK sKey reg.mem sid })

/-- TTL for pending records and tasks in seconds (TASK_TTL_SECONDS, src/db.rs line 10). -/
def TASK_TTL_SECONDS : Int := 24 * 60 * 60

/-- The PendingDownloadRow projection TaskDb::get_all_pending_downloads selects
(src/db.rs lines 12-19 and 94-114). -/
structure PendingDownloadRow where
  short_id : String
  url : String
  chat_id : Int
  message_id : Int
deriving DecidableEq

/-- TaskDb::get_all_pending_downloads (src/db.rs 94-114): the rows whose created_at is
strictly greater than now minus the TTL, projected to PendingDownloadRow. -/
def get_all_pending_downloads (now : Int) (table : List PendingDownloadDbRow) :
    List PendingDownloadRow :=
  (table.filter (fun r => decide (r.created_at > now - TASK_TTL_SECONDS))).map
    (fun r => { short_id := r.short_id, url := r.url, chat_id := r.chat_id,
                message_id := r.message_id })

/-- TaskDb::delete_expired_pending_downloads (src/db.rs 116-126): DELETE WHERE
created_at <= now minus TTL; returns the number of deleted rows and the table after. -/
def delete_expired_pending_downloads (now : Int) (table : List PendingDownloadDbRow) :
    Nat × List PendingDownloadDbRow :=
  ((table.filter (fun r => decide (r.created_at ≤ now - TASK_TTL_SECONDS))).length,
   table.filter (fun r => decide (r.created_at > now - TASK_TTL_SECONDS)))

/-- Durable tasks row including the created_at column of the schema (TaskRow in
src/db.rs lines 33-45 carries every column except created_at). -/
structure DbTaskRow where
  id : String
  task_type : String
  chat_id : Int
  message_id : Int
  unique_file_id : String
  status : String
  url : Option String
  quality : Option Int
  filename : Option String
  thumbnail_path : Option String
  format : Option String
  created_at : Int
deriving DecidableEq

/-- TaskDb::insert_task (src/db.rs 225-265): INSERT with ON CONFLICT(id) DO UPDATE SET
status = excluded.status.  When a row with the id exists only its status column is
replaced; otherwise the new row is appended. -/
def insert_task (table : List DbTaskRow) (r : DbTaskRow) : List DbTaskRow :=
  if r.id ∈ table.map DbTaskRow.id then
    table.map (fun q => if q.id = r.id then { q with status := r.status } else q)
  else table ++ [r]

/-- TaskDb::get_all_tasks (src/db.rs 288-319): the rows whose created_at is strictly
greater than now minus the TTL (the code projects away created_at; keeping the whole
row loses nothing). -/
def get_all_tasks (now : Int) (table : List DbTaskRow) : List DbTaskRow :=
  table.filter (fun r => decide (r.created_at > now - TASK_TTL_SECONDS))

/-- TaskDb::delete_expired_tasks (src/db.rs 322-353): collect filename and then
thumbnail_path of every expired row with task_type convert, delete every expired row,
return the collected files and the table afterwards. -/
def delete_expired_tasks (now : Int) (table : List DbTaskRow) :
    List String × List DbTaskRow :=
  let cutoff := now - TASK_TTL_SECONDS
  let convRows := table.filter
    (fun r => decide (r.created_at ≤ cutoff) && decide (r.task_type = "convert"))
  ((convRows.filterMap DbTaskRow.filename) ++ (convRows.filterMap DbTaskRow.thumbnail_path),
   table.filter (fun r => decide (r.created_at > cutoff)))

/-- Side effects accumulated by restore_on_startup over the tasks table: the remaining
table, the disk files removed, and the notifications sent (owning chat, message kind). -/
structure RecoveryOut where
  table : List DbTaskRow
  deletedFiles : List String
  notifications : List (Int × String)
deriving DecidableEq

/-- One iteration of the loop in restore_on_startup step 2 (src/queue/mod.rs 384-421):
a row still marked processing gets an interrupted notification to its chat, its
filename and thumbnail removed from disk, and its row deleted; a row marked queued the
same with the queue-reset notification; any other status is left untouched. -/
def handleTaskRow (acc : RecoveryOut) (r : DbTaskRow) : RecoveryOut :=
  if r.status = "processing" then
    { table := acc.table.filter (fun q => decide (q.id ≠ r.id)),
      deletedFiles := acc.deletedFiles ++ r.filename.toList ++ r.thumbnail_path.toList,
      notifications := acc.notifications ++ [(r.chat_id, "interrupted")] }
  else if r.status = "queued" then
    { table := acc.table.filter (fun q => decide (q.id ≠ r.id)),
      deletedFiles := acc.deletedFiles ++ r.filename.toList ++ r.thumbnail_path.toList,
      notifications := acc.notifications ++ [(r.chat_id, "queue_reset")] }
  else acc

/-- The tasks-table part of TaskQueue::restore_on_startup (src/queue/mod.rs 359-421):
step 1 purges the expired rows, removing the files delete_expired_tasks collected;
step 2 walks get_all_tasks and handles every row still marked processing or queued. -/
def restore_tasks (now : Int) (table : List DbTaskRow) : RecoveryOut :=
  let purged := delete_expired_tasks now table
  let rows := get_all_tasks now purged.2
  rows.foldl handleTaskRow
    { table := purged.2, deletedFiles := purged.1, notifications := [] }

section KeyedLemmas

variable {A : Type} {B : Type} [DecidableEq B]

theorem findK_nil (key : A → B) (k : B) : findK key [] k = none := rfl

theorem findK_cons_self {key : A → B} {a : A} {k : B} (l : List A) (h : key a = k) :
    findK key (a :: l) k = some a := by
  simp [findK, List.find?_cons_of_pos, h]

theorem findK_cons_ne {key : A → B} {a : A} {k : B} (l : List A) (h : key a ≠ k) :
    findK key (a :: l) k = findK key l k := by
  simp [findK, List.find?_cons_of_neg, h]

theorem eraseK_cons_self {key : A → B} {a : A} {k : B} (l : List A) (h : key a = k) :
    eraseK key (a :: l) k = eraseK key l k := by
  simp [eraseK, List.filter_cons, h]

theorem eraseK_cons_ne {key : A → B} {a : A} {k : B} (l : List A) (h : key a ≠ k) :
    eraseK key (a :: l) k = a :: eraseK key l k := by
  simp [eraseK, List.filter_cons, h]

theorem updK_cons_self {key : A → B} {a : A} {k : B} {f : A → A} (l : List A)
    (h : key a = k) : updK key (a :: l) k f = f a :: updK key l k f := by
  simp [updK, h]

theorem updK_cons_ne {key : A → B} {a : A} {k : B} {f : A → A} (l : List A)
    (h : key a ≠ k) : updK key (a :: l) k f = a :: updK key l k f := by
  simp [updK, h]

theorem findK_key {key : A → B} {l : List A} {k : B} {a : A} (h : findK key l k = some a) :
    key a = k := by
  have := List.find?_some h
  simpa using this

theorem findK_mem {key : A → B} {l : List A} {k : B} {a : A} (h : findK key l k = some a) :
    a ∈ l :=
  List.mem_of_find?_eq_some h

theorem findK_eq_none {key : A → B} {l : List A} {k : B} (h : k ∉ keysK key l) :
    findK key l k = none := by
  induction l with
  | nil => rfl
  | cons a l ih =>
    simp only [keysK, List.map_cons, List.mem_cons, not_or] at h
    rw [findK_cons_ne l (fun hk => h.1 hk.symm)]
    exact ih (by simpa [keysK] using h.2)

theorem mem_keysK_of_findK {key : A → B} {l : List A} {k : B} {a : A}
    (h : findK key l k = some a) : k ∈ keysK key l := by
  have h1 := findK_key h
  have h2 := findK_mem h
  exact h1 ▸ List.mem_map_of_mem key h2

theorem findK_append_left {key : A → B} {l : List A} {k : B} {a : A} (l2 : List A)
    (h : findK key l k = some a) : findK key (l ++ l2) k = some a := by
  induction l with
  | nil => simp [findK] at h
  | cons x l ih =>
    by_cases hx : key x = k
    · rw [findK_cons_self l hx] at h
      rw [List.cons_append, findK_cons_self _ hx]
      exact h
    · rw [findK_cons_ne l hx] at h
      rw [List.cons_append, findK_cons_ne _ hx]
      exact ih h

theorem findK_append_right {key : A → B} {l : List A} {k : B} (l2 : List A)
    (h : findK key l k = none) : findK key (l ++ l2) k = findK key l2 k := by
  induction l with
  | nil => simp
  | cons x l ih =>
    by_cases hx : key x = k
    · rw [findK_cons_self l hx] at h; exact absurd h (by simp)
    · rw [findK_cons_ne l hx] at h
      rw [List.cons_append, findK_cons_ne _ hx]
      exact ih h

theorem updK_eq_of_not_mem {key : A → B} {l : List A} {k : B} (f : A → A)
    (h : k ∉ keysK key l) : updK key l k f = l := by
  induction l with
  | nil => rfl
  | cons a l ih =>
    simp only [keysK, List.map_cons, List.mem_cons, not_or] at h
    rw [updK_cons_ne l (fun hc : key a = k => h.1 hc.symm)]
    rw [ih (by simpa [keysK] using h.2)]

theorem eraseK_eq_of_not_mem {key : A → B} {l : List A} {k : B}
    (h : k ∉ keysK key l) : eraseK key l k = l := by
  induction l with
  | nil => rfl
  | cons a l ih =>
    simp only [keysK, List.map_cons, List.mem_cons, not_or] at h
    rw [eraseK_cons_ne l (fun hc : key a = k => h.1 hc.symm)]
    rw [ih (by simpa [keysK] using h.2)]

theorem keysK_updK (key : A → B) (l : List A) (k : B) (f : A → A)
    (hf : ∀ a, key a = k → key (f a) = key a) :
    keysK key (updK key l k f) = keysK key l := by
  induction l with
  | nil => rfl
  | cons a l ih =>
    by_cases h : key a = k
    · rw [updK_cons_self l h]
      simp only [keysK, List.map_cons] at *
      rw [hf a h, ih]
    · rw [updK_cons_ne l h]
      simp only [keysK, List.map_cons] at *
      rw [ih]

theorem findK_updK_self (key : A → B) (l : List A) (k : B) (f : A → A)
    (hf : ∀ a, key a = k → key (f a) = key a) :
    findK key (updK key l k f) k = (findK key l k).map f := by
  induction l with
  | nil => rfl
  | cons a l ih =>
    by_cases h : key a = k
    · rw [findK_cons_self l h, updK_cons_self l h]
      rw [findK_cons_self _ (by rw [hf a h]; exact h)]
      rfl
    · rw [findK_cons_ne l h, updK_cons_ne l h]
      rw [findK_cons_ne _ h]
      exact ih

theorem findK_updK_ne {j : B} (key : A → B) (l : List A) (k : B) (f : A → A)
    (hf : ∀ a, key a = k → key (f a) = key a) (hj : j ≠ k) :
    findK key (updK key l k f) j = findK key l j := by
  induction l with
  | nil => rfl
  | cons a l ih =>
    by_cases h : key a = k
    · rw [updK_cons_self l h]
      rw [findK_cons_ne _ (by rw [hf a h, h]; exact fun hc => hj hc.symm)]
      rw [findK_cons_ne l (by rw [h]; exact fun hc => hj hc.symm)]
      exact ih
    · rw [updK_cons_ne l h]
      by_cases h2 : key a = j
      · rw [findK_cons_self _ h2, findK_cons_self l h2]
      · rw [findK_cons_ne _ h2, findK_cons_ne l h2]
        exact ih

theorem findK_eraseK_self {key : A → B} (l : List A) (k : B) :
    findK key (eraseK key l k) k = none := by
  induction l with
  | nil => rfl
  | cons a l ih =>
    by_cases h : key a = k
    · rw [eraseK_cons_self l h]
      exact ih
    · rw [eraseK_cons_ne l h, findK_cons_ne _ h]
      exact ih

theorem findK_eraseK_ne {key : A → B} {k j : B} (l : List A) (hj : j ≠ k) :
    findK key (eraseK key l k) j = findK key l j := by
  induction l with
  | nil => rfl
  | cons a l ih =>
    by_cases h : key a = k
    · rw [eraseK_cons_self l h]
      rw [findK_cons_ne l (by rw [h]; exact fun hc => hj hc.symm)]
      exact ih
    · rw [eraseK_cons_ne l h]
      by_cases h2 : key a = j
      · rw [findK_cons_self _ h2, findK_cons_self l h2]
      · rw [findK_cons_ne _ h2, findK_cons_ne l h2]
        exact ih

theorem eraseK_sublist {key : A → B} (l : List A) (k : B) :
    (eraseK key l k).Sublist l :=
  List.filter_sublist l

theorem countP_updK {key : A → B} {k : B} {l : List A} {a : A} (P : A → Bool) (f : A → A)
    (hnd : (keysK key l).Nodup) (h : findK key l k = some a) :
    (updK key l k f).countP P + (if P a then 1 else 0)
      = l.countP P + (if P (f a) then 1 else 0) := by
  induction l with
  | nil => simp [findK] at h
  | cons x l ih =>
    simp only [keysK, List.map_cons, List.nodup_cons] at hnd
    by_cases hx : key x = k
    · rw [findK_cons_self l hx] at h
      cases h
      have hknot : k ∉ keysK key l := fun hc => hnd.1 (hx ▸ hc)
      rw [updK_cons_self l hx, updK_eq_of_not_mem f hknot]
      simp only [List.countP_cons]
      omega
    · rw [findK_cons_ne l hx] at h
      rw [updK_cons_ne l hx]
      simp only [List.countP_cons]
      have := ih hnd.2 h
      omega

theorem countP_eraseK {key : A → B} {k : B} {l : List A} {a : A} (P : A → Bool)
    (hnd : (keysK key l).Nodup) (h : findK key l k = some a) :
    (eraseK key l k).countP P + (if P a then 1 else 0) = l.countP P := by
  induction l with
  | nil => simp [findK] at h
  | cons x l ih =>
    simp only [keysK, List.map_cons, List.nodup_cons] at hnd
    by_cases hx : key x = k
    · rw [findK_cons_self l hx] at h
      cases h
      have hknot : k ∉ keysK key l := fun hc => hnd.1 (hx ▸ hc)
      rw [eraseK_cons_self l hx, eraseK_eq_of_not_mem hknot]
      simp [List.countP_cons]
    · rw [findK_cons_ne l hx] at h
      rw [eraseK_cons_ne l hx]
      simp only [List.countP_cons]
      have := ih hnd.2 h
      omega

theorem mem_eraseK {key : A → B} {l : List A} {k : B} {b : A} :
    b ∈ eraseK key l k ↔ b ∈ l ∧ key b ≠ k := by
  simp [eraseK, List.mem_filter]

theorem mem_updK {key : A → B} {l : List A} {k : B} {f : A → A} {b : A} :
    b ∈ updK key l k f ↔ ∃ a ∈ l, (if key a = k then f a else a) = b := by
  simp [updK, List.mem_map]

theorem length_updK {key : A → B} (l : List A) (k : B) (f : A → A) :
    (updK key l k f).length = l.length :=
  List.length_map _ _

theorem length_eraseK {key : A → B} {l : List A} {k : B} {a : A}
    (hnd : (keysK key l).Nodup) (h : findK key l k = some a) :
    (eraseK key l k).length + 1 = l.length := by
  have hc := countP_eraseK (fun _ => true) hnd h
  simpa using hc

theorem findK_eq_of_mem_nodup {key : A → B} {l : List A} {a : A} {k : B}
    (hnd : (keysK key l).Nodup) (ha : a ∈ l) (hk : key a = k) :
    findK key l k = some a := by
  induction l with
  | nil => simp at ha
  | cons x l ih =>
    simp only [keysK, List.map_cons, List.nodup_cons] at hnd
    rcases List.mem_cons.mp ha with rfl | ha2
    · exact findK_cons_self l hk
    · have hx : key x ≠ k := by
        intro hc
        have hin : k ∈ List.map key l := hk ▸ List.mem_map_of_mem key ha2
        exact hnd.1 (by rw [hc]; exact hin)
      rw [findK_cons_ne l hx]
      exact ih hnd.2 ha2

end KeyedLemmas

theorem userList_pushUser_self (l : List (Int × List Nat)) (c : Int) (j : Nat) :
    userList (pushUser l c j) c = userList l c ++ [j] := by
  cases hf : findK uKey l c with
  | some p =>
    simp only [pushUser, hf]
    unfold userList
    rw [findK_updK_self uKey l c (fun p => (p.1, p.2 ++ [j])) (fun a _ => rfl), hf]
    rfl
  | none =>
    simp only [pushUser, hf]
    unfold userList
    rw [findK_append_right [(c, [j])] hf, findK_cons_self [] (show uKey (c, [j]) = c from rfl), hf]
    rfl

theorem userList_pushUser_ne (l : List (Int × List Nat)) (c c' : Int) (j : Nat)
    (hc : c' ≠ c) : userList (pushUser l c j) c' = userList l c' := by
  cases hf : findK uKey l c with
  | some p =>
    simp only [pushUser, hf]
    unfold userList
    rw [findK_updK_ne uKey l c (fun p => (p.1, p.2 ++ [j])) (fun a _ => rfl) hc]
  | none =>
    simp only [pushUser, hf]
    unfold userList
    cases hf2 : findK uKey l c' with
    | some q => rw [findK_append_left [(c, [j])] hf2]
    | none =>
      rw [findK_append_right [(c, [j])] hf2,
        findK_cons_ne [] (show uKey (c, [j]) ≠ c' from fun hcc => hc hcc.symm)]
      rfl

theorem userList_removeUserTask_self (l : List (Int × List Nat)) (c : Int) (j : Nat) :
    userList (removeUserTask l c j) c
      = (userList l c).filter (fun i => decide (i ≠ j)) := by
  unfold removeUserTask userList
  rw [findK_updK_self uKey l c (fun p => (p.1, p.2.filter (fun i => decide (i ≠ j)))) (fun a _ => rfl)]
  cases hf : findK uKey l c with
  | some p => rfl
  | none => rfl

theorem userList_removeUserTask_ne (l : List (Int × List Nat)) (c c' : Int) (j : Nat)
    (hc : c' ≠ c) : userList (removeUserTask l c j) c' = userList l c' := by
  unfold removeUserTask userList
  rw [findK_updK_ne uKey l c (fun p => (p.1, p.2.filter (fun i => decide (i ≠ j)))) (fun a _ => rfl) hc]

theorem inv_init : Inv initQ := by
  refine ⟨rfl, rfl, ?_, ?_, ?_, ?_, ?_, ?_, ?_, rfl, ?_, ?_, ?_⟩ <;> simp [initQ, keysK]

theorem inv_submit (s : QueueState) (t : MTask) (hs : Inv s) :
    Inv (stepQ s (QEvent.submit t)).1 := by
  by_cases hok : submitOk s t = true
  · have hs4 := hok
    simp only [submitOk, Bool.and_eq_true, decide_eq_true_eq] at hs4
    obtain ⟨⟨⟨h1, h2⟩, h3⟩, h4⟩ := hs4
    simp only [stepQ, if_pos hok]
    refine ⟨hs.permitsEq, ?_, ?_, hs.ndH, ?_, ?_, ?_, ?_, ?_, ?_, ?_, ?_, ?_⟩
    · simp [hs.pendEq]
    · show ((s.channel ++ [t]).map MTask.tid).Nodup
      rw [List.map_append]
      refine List.Nodup.append hs.ndCh (by simp) ?_
      intro x hx hx2
      simp only [List.map_cons, List.map_nil, List.mem_singleton] at hx2
      exact h2 (hx2 ▸ hx)
    · show (keysK stKey ((t.tid, TaskStatus.queued (s.pendingCount + 1)) :: s.statuses)).Nodup
      simp only [keysK, List.map_cons]
      exact List.nodup_cons.mpr ⟨by simpa [keysK] using h1, by simpa [keysK] using hs.ndSt⟩
    · intro u hu
      rcases List.mem_append.mp hu with hu1 | hu2
      · exact hs.disj u hu1
      · simp only [List.mem_singleton] at hu2
        rw [hu2]
        exact h3
    · intro u hu
      rcases List.mem_append.mp hu with hu1 | hu2
      · have hne : stKey (t.tid, TaskStatus.queued (s.pendingCount + 1)) ≠ u.tid := by
          intro hc
          have hc2 : t.tid = u.tid := hc
          rw [hc2] at h2
          exact h2 (List.mem_map_of_mem MTask.tid hu1)
        obtain ⟨pos, hpos⟩ := hs.chQueued u hu1
        exact ⟨pos, by rw [findK_cons_ne _ hne]; exact hpos⟩
      · simp only [List.mem_singleton] at hu2
        refine ⟨s.pendingCount + 1, ?_⟩
        rw [hu2]
        exact findK_cons_self _ rfl
    · intro p hp hr
      have hne : stKey (t.tid, TaskStatus.queued (s.pendingCount + 1)) ≠ p.1.tid := by
        intro hc
        have hc2 : t.tid = p.1.tid := hc
        exact h3 (by rw [hc2]; exact List.mem_map_of_mem hKey hp)
      rw [findK_cons_ne _ hne]
      exact hs.hRun p hp hr
    · intro p hp hg
      have hne : stKey (t.tid, TaskStatus.queued (s.pendingCount + 1)) ≠ p.1.tid := by
        intro hc
        have hc2 : t.tid = p.1.tid := hc
        exact h3 (by rw [hc2]; exact List.mem_map_of_mem hKey hp)
      obtain ⟨st, hst, hterm⟩ := hs.hGrace p hp hg
      exact ⟨st, by rw [findK_cons_ne _ hne]; exact hst, hterm⟩
    · show countProcessing _ = _
      simpa [countProcessing, List.countP_cons, isProcessing] using hs.countEq
    · intro p hp hg
      simp only [List.mem_cons, not_or]
      refine ⟨?_, hs.dbGrace p hp hg⟩
      intro hc
      exact h3 (by rw [← hc]; exact List.mem_map_of_mem hKey hp)
    · intro p hp
      by_cases hcc : p.1.chat = t.chat
      · show p.1.tid ∈ userList (pushUser s.userTasks t.chat t.tid) p.1.chat
        rw [hcc, userList_pushUser_self]
        exact List.mem_append_left _ (hcc ▸ hs.hMem p hp)
      · show p.1.tid ∈ userList (pushUser s.userTasks t.chat t.tid) p.1.chat
        rw [userList_pushUser_ne _ _ _ _ hcc]
        exact hs.hMem p hp
    · intro u hu
      rcases List.mem_append.mp hu with hu1 | hu2
      · by_cases hcc : u.chat = t.chat
        · show u.tid ∈ userList (pushUser s.userTasks t.chat t.tid) u.chat
          rw [hcc, userList_pushUser_self]
          exact List.mem_append_left _ (hcc ▸ hs.chMem u hu1)
        · show u.tid ∈ userList (pushUser s.userTasks t.chat t.tid) u.chat
          rw [userList_pushUser_ne _ _ _ _ hcc]
          exact hs.chMem u hu1
      · simp only [List.mem_singleton] at hu2
        show u.tid ∈ userList (pushUser s.userTasks t.chat t.tid) u.chat
        rw [hu2, userList_pushUser_self]
        exact List.mem_append_right _ (by simp)
  · simp only [stepQ, if_neg hok]
    exact hs

theorem inv_dispatch (s : QueueState) (hs : Inv s) : Inv (stepQ s QEvent.dispatch).1 := by
  cases hch : s.channel with
  | nil => simp only [stepQ, hch]; exact hs
  | cons t rest =>
    cases hp : s.permits with
    | zero => simp only [stepQ, hch, hp]; exact hs
    | succ p =>
      simp only [stepQ, hch, hp]
      have htmem : t ∈ s.channel := by rw [hch]; exact List.mem_cons_self t rest
      obtain ⟨pos, hpos⟩ := hs.chQueued t htmem
      have hnotH : t.tid ∉ keysK hKey s.handlers := hs.disj t htmem
      have hndCh2 : (t.tid :: List.map MTask.tid rest).Nodup := by
        have := hs.ndCh
        rw [hch] at this
        simpa using this
      have hheadnot : t.tid ∉ List.map MTask.tid rest := (List.nodup_cons.mp hndCh2).1
      have hrestnd : (List.map MTask.tid rest).Nodup := (List.nodup_cons.mp hndCh2).2
      refine ⟨?_, ?_, hrestnd, ?_, ?_, ?_, ?_, ?_, ?_, ?_, ?_, ?_, ?_⟩
      · have hpe := hs.permitsEq
        rw [hp] at hpe
        show p + (s.handlers.length + 1) = MAX_CONCURRENT_TASKS
        omega
      · have hpd := hs.pendEq
        rw [hch] at hpd
        show s.pendingCount - 1 = rest.length
        simp only [List.length_cons] at hpd
        omega
      · show (keysK hKey ((t, HandlerStage.running) :: s.handlers)).Nodup
        simp only [keysK, List.map_cons]
        exact List.nodup_cons.mpr ⟨by simpa [keysK] using hnotH, by simpa [keysK] using hs.ndH⟩
      · show (keysK stKey (updK stKey s.statuses t.tid
          (fun q => (q.1, TaskStatus.processing)))).Nodup
        rw [keysK_updK stKey s.statuses t.tid
          (fun q => (q.1, TaskStatus.processing)) (fun a _ => rfl)]
        exact hs.ndSt
      · intro u hu
        have humem : u ∈ s.channel := by rw [hch]; exact List.mem_cons_of_mem t hu
        show u.tid ∉ keysK hKey ((t, HandlerStage.running) :: s.handlers)
        simp only [keysK, List.map_cons, List.mem_cons, not_or]
        refine ⟨?_, by simpa [keysK] using hs.disj u humem⟩
        intro hc
        have hc2 : u.tid = t.tid := hc
        exact hheadnot (by rw [← hc2]; exact List.mem_map_of_mem MTask.tid hu)
      · intro u hu
        have humem : u ∈ s.channel := by rw [hch]; exact List.mem_cons_of_mem t hu
        have hne : u.tid ≠ t.tid := by
          intro hc
          exact hheadnot (by rw [← hc]; exact List.mem_map_of_mem MTask.tid hu)
        obtain ⟨pos2, hpos2⟩ := hs.chQueued u humem
        refine ⟨pos2, ?_⟩
        rw [findK_updK_ne stKey s.statuses t.tid
          (fun q => (q.1, TaskStatus.processing)) (fun a _ => rfl) hne]
        exact hpos2
      · intro q hq hr
        rcases List.mem_cons.mp hq with rfl | hq2
        · show findK stKey _ t.tid = _
          rw [findK_updK_self stKey s.statuses t.tid
            (fun q => (q.1, TaskStatus.processing)) (fun a _ => rfl), hpos]
          rfl
        · have hne : q.1.tid ≠ t.tid := by
            intro hc
            exact hnotH (by rw [← hc]; exact List.mem_map_of_mem hKey hq2)
          rw [findK_updK_ne stKey s.statuses t.tid
            (fun q => (q.1, TaskStatus.processing)) (fun a _ => rfl) hne]
          exact hs.hRun q hq2 hr
      · intro q hq hg
        rcases List.mem_cons.mp hq with rfl | hq2
        · exact absurd hg (by simp)
        · have hne : q.1.tid ≠ t.tid := by
            intro hc
            exact hnotH (by rw [← hc]; exact List.mem_map_of_mem hKey hq2)
          obtain ⟨st, hst, hterm⟩ := hs.hGrace q hq2 hg
          refine ⟨st, ?_, hterm⟩
          rw [findK_updK_ne stKey s.statuses t.tid
            (fun q => (q.1, TaskStatus.processing)) (fun a _ => rfl) hne]
          exact hst
      · have hcu := countP_updK (fun pr => isProcessing pr.2)
          (fun q => (q.1, TaskStatus.processing)) hs.ndSt hpos
        rw [if_neg (by simp [isProcessing]), if_pos (by simp [isProcessing])] at hcu
        have hce := hs.countEq
        show countProcessing _ = _
        simp only [countProcessing] at hce ⊢
        rw [List.countP_cons, if_pos (by simp)]
        omega
      · intro q hq hg
        rcases List.mem_cons.mp hq with rfl | hq2
        · exact absurd hg (by simp)
        · exact hs.dbGrace q hq2 hg
      · intro q hq
        rcases List.mem_cons.mp hq with rfl | hq2
        · exact hs.chMem t htmem
        · exact hs.hMem q hq2
      · intro u hu
        have humem : u ∈ s.channel := by rw [hch]; exact List.mem_cons_of_mem t hu
        exact hs.chMem u humem

theorem isTerminal_resultStatus (err : Option String) :
    isTerminal (resultStatus err) = true := by
  cases err <;> rfl

theorem isProcessing_resultStatus (err : Option String) :
    isProcessing (resultStatus err) = false := by
  cases err <;> rfl

theorem inv_finish (s : QueueState) (tid : Nat) (err : Option String) (hs : Inv s) :
    Inv (stepQ s (QEvent.finish tid err)).1 := by
  cases hf : findK hKey s.handlers tid with
  | none => simp only [stepQ, hf]; exact hs
  | some q =>
    obtain ⟨t, stg⟩ := q
    cases stg with
    | grace => simp only [stepQ, hf]; exact hs
    | running =>
      simp only [stepQ, hf]
      have htid0 := findK_key hf
      have htid : t.tid = tid := htid0
      have htmem : (t, HandlerStage.running) ∈ s.handlers := findK_mem hf
      have hproc0 := hs.hRun (t, HandlerStage.running) htmem rfl
      have hproc : findK stKey s.statuses tid = some (tid, TaskStatus.processing) := by
        rw [← htid]; exact hproc0
      have htidkeys : tid ∈ keysK hKey s.handlers := mem_keysK_of_findK hf
      refine ⟨?_, hs.pendEq, hs.ndCh, ?_, ?_, ?_, ?_, ?_, ?_, ?_, ?_, ?_, hs.chMem⟩
      · show s.permits + (updK hKey s.handlers tid
          (fun q => (q.1, HandlerStage.grace))).length = MAX_CONCURRENT_TASKS
        rw [length_updK]
        exact hs.permitsEq
      · show (keysK hKey (updK hKey s.handlers tid
          (fun q => (q.1, HandlerStage.grace)))).Nodup
        rw [keysK_updK hKey s.handlers tid
          (fun q => (q.1, HandlerStage.grace)) (fun a _ => rfl)]
        exact hs.ndH
      · show (keysK stKey (updK stKey s.statuses tid
          (fun q => (q.1, resultStatus err)))).Nodup
        rw [keysK_updK stKey s.statuses tid
          (fun q => (q.1, resultStatus err)) (fun a _ => rfl)]
        exact hs.ndSt
      · intro u hu
        show u.tid ∉ keysK hKey (updK hKey s.handlers tid
          (fun q => (q.1, HandlerStage.grace)))
        rw [keysK_updK hKey s.handlers tid
          (fun q => (q.1, HandlerStage.grace)) (fun a _ => rfl)]
        exact hs.disj u hu
      · intro u hu
        have hne : u.tid ≠ tid := by
          intro hc
          exact hs.disj u hu (by rw [hc]; exact htidkeys)
        obtain ⟨pos, hpos⟩ := hs.chQueued u hu
        refine ⟨pos, ?_⟩
        rw [findK_updK_ne stKey s.statuses tid
          (fun q => (q.1, resultStatus err)) (fun a _ => rfl) hne]
        exact hpos
      · intro p hp hr
        obtain ⟨a, ha, hcond⟩ := mem_updK.mp hp
        by_cases hak : hKey a = tid
        · rw [if_pos hak] at hcond
          rw [← hcond] at hr
          exact absurd hr (by simp)
        · rw [if_neg hak] at hcond
          subst hcond
          have hne : a.1.tid ≠ tid := hak
          rw [findK_updK_ne stKey s.statuses tid
            (fun q => (q.1, resultStatus err)) (fun a _ => rfl) hne]
          exact hs.hRun a ha hr
      · intro p hp hg
        obtain ⟨a, ha, hcond⟩ := mem_updK.mp hp
        by_cases hak : hKey a = tid
        · rw [if_pos hak] at hcond
          have haf : a = (t, HandlerStage.running) := by
            have := findK_eq_of_mem_nodup hs.ndH ha hak
            rw [hf] at this
            exact (Option.some.inj this).symm
          subst haf
          rw [← hcond]
          refine ⟨resultStatus err, ?_, isTerminal_resultStatus err⟩
          show findK stKey (updK stKey s.statuses tid
            (fun q => (q.1, resultStatus err))) t.tid = _
          rw [htid, findK_updK_self stKey s.statuses tid
            (fun q => (q.1, resultStatus err)) (fun a _ => rfl), hproc]
          rfl
        · rw [if_neg hak] at hcond
          subst hcond
          have hne : a.1.tid ≠ tid := hak
          obtain ⟨st, hst, hterm⟩ := hs.hGrace a ha hg
          refine ⟨st, ?_, hterm⟩
          rw [findK_updK_ne stKey s.statuses tid
            (fun q => (q.1, resultStatus err)) (fun a _ => rfl) hne]
          exact hst
      · have hcu := countP_updK (fun pr => isProcessing pr.2)
          (fun q => (q.1, resultStatus err)) hs.ndSt hproc
        rw [if_pos (by simp [isProcessing]),
          if_neg (by simp [isProcessing_resultStatus err])] at hcu
        have hch := countP_updK (fun pr => decide (pr.2 = HandlerStage.running))
          (fun q => (q.1, HandlerStage.grace)) hs.ndH hf
        rw [if_pos (by simp), if_neg (by simp)] at hch
        have hce := hs.countEq
        show countProcessing _ = _
        simp only [countProcessing] at hce ⊢
        omega
      · intro p hp hg
        obtain ⟨a, ha, hcond⟩ := mem_updK.mp hp
        by_cases hak : hKey a = tid
        · rw [if_pos hak] at hcond
          rw [← hcond]
          show a.1.tid ∉ List.filter (fun j => decide (j ≠ tid)) s.dbTasks
          have hak2 : a.1.tid = tid := hak
          rw [hak2]
          simp [List.mem_filter]
        · rw [if_neg hak] at hcond
          subst hcond
          intro hc
          have := (List.mem_filter.mp hc).1
          exact hs.dbGrace a ha hg this
      · intro p hp
        obtain ⟨a, ha, hcond⟩ := mem_updK.mp hp
        by_cases hak : hKey a = tid
        · rw [if_pos hak] at hcond
          rw [← hcond]
          exact hs.hMem a ha
        · rw [if_neg hak] at hcond
          subst hcond
          exact hs.hMem a ha

theorem isProcessing_of_isTerminal {st : TaskStatus} (h : isTerminal st = true) :
    isProcessing st = false := by
  cases st <;> simp [isProcessing, isTerminal] at *

theorem inv_graceDone (s : QueueState) (tid : Nat) (hs : Inv s) :
    Inv (stepQ s (QEvent.graceDone tid)).1 := by
  cases hf : findK hKey s.handlers tid with
  | none => simp only [stepQ, hf]; exact hs
  | some q =>
    obtain ⟨t, stg⟩ := q
    cases stg with
    | running => simp only [stepQ, hf]; exact hs
    | grace =>
      simp only [stepQ, hf]
      have htid0 := findK_key hf
      have htid : t.tid = tid := htid0
      have htmem : (t, HandlerStage.grace) ∈ s.handlers := findK_mem hf
      obtain ⟨st, hst0, hterm⟩ := hs.hGrace (t, HandlerStage.grace) htmem rfl
      have hst : findK stKey s.statuses tid = some (tid, st) := by
        rw [← htid]; exact hst0
      have htidkeys : tid ∈ keysK hKey s.handlers := mem_keysK_of_findK hf
      have hsubH : keysK hKey (eraseK hKey s.handlers tid) ⊆ keysK hKey s.handlers :=
        (List.Sublist.map hKey (eraseK_sublist s.handlers tid)).subset
      refine ⟨?_, hs.pendEq, hs.ndCh, ?_, ?_, ?_, ?_, ?_, ?_, ?_, ?_, ?_, ?_⟩
      · have hle := length_eraseK hs.ndH hf
        have hpe := hs.permitsEq
        show s.permits + 1 + (eraseK hKey s.handlers tid).length = MAX_CONCURRENT_TASKS
        omega
      · exact List.Sublist.nodup (List.Sublist.map hKey (eraseK_sublist s.handlers tid)) hs.ndH
      · exact List.Sublist.nodup (List.Sublist.map stKey (eraseK_sublist s.statuses tid)) hs.ndSt
      · intro u hu hc
        exact hs.disj u hu (hsubH hc)
      · intro u hu
        have hne : u.tid ≠ tid := by
          intro hc
          exact hs.disj u hu (by rw [hc]; exact htidkeys)
        obtain ⟨pos, hpos⟩ := hs.chQueued u hu
        refine ⟨pos, ?_⟩
        rw [findK_eraseK_ne s.statuses hne]
        exact hpos
      · intro p hp hr
        obtain ⟨hpl, hpk⟩ := mem_eraseK.mp hp
        have hne : p.1.tid ≠ tid := hpk
        rw [findK_eraseK_ne s.statuses hne]
        exact hs.hRun p hpl hr
      · intro p hp hg
        obtain ⟨hpl, hpk⟩ := mem_eraseK.mp hp
        have hne : p.1.tid ≠ tid := hpk
        obtain ⟨st2, hst2, hterm2⟩ := hs.hGrace p hpl hg
        refine ⟨st2, ?_, hterm2⟩
        rw [findK_eraseK_ne s.statuses hne]
        exact hst2
      · have hcs := countP_eraseK (fun pr => isProcessing pr.2) hs.ndSt hst
        rw [if_neg (by simp [isProcessing_of_isTerminal hterm])] at hcs
        have hch := countP_eraseK (fun pr => decide (pr.2 = HandlerStage.running)) hs.ndH hf
        rw [if_neg (by simp)] at hch
        have hce := hs.countEq
        show countProcessing _ = _
        simp only [countProcessing] at hce ⊢
        omega
      · intro p hp hg
        obtain ⟨hpl, hpk⟩ := mem_eraseK.mp hp
        exact hs.dbGrace p hpl hg
      · intro p hp
        obtain ⟨hpl, hpk⟩ := mem_eraseK.mp hp
        have hne : p.1.tid ≠ tid := hpk
        by_cases hcc : p.1.chat = t.chat
        · show p.1.tid ∈ userList (removeUserTask s.userTasks t.chat tid) p.1.chat
          rw [hcc, userList_removeUserTask_self]
          refine List.mem_filter.mpr ⟨?_, by simpa using hne⟩
          rw [← hcc]
          exact hs.hMem p hpl
        · show p.1.tid ∈ userList (removeUserTask s.userTasks t.chat tid) p.1.chat
          rw [userList_removeUserTask_ne _ _ _ _ hcc]
          exact hs.hMem p hpl
      · intro u hu
        have hne : u.tid ≠ tid := by
          intro hc
          exact hs.disj u hu (by rw [hc]; exact htidkeys)
        by_cases hcc : u.chat = t.chat
        · show u.tid ∈ userList (removeUserTask s.userTasks t.chat tid) u.chat
          rw [hcc, userList_removeUserTask_self]
          refine List.mem_filter.mpr ⟨?_, by simpa using hne⟩
          rw [← hcc]
          exact hs.chMem u hu
        · show u.tid ∈ userList (removeUserTask s.userTasks t.chat tid) u.chat
          rw [userList_removeUserTask_ne _ _ _ _ hcc]
          exact hs.chMem u hu

theorem inv_step (s : QueueState) (e : QEvent) (hs : Inv s) : Inv (stepQ s e).1 := by
  cases e with
  | submit t => exact inv_submit s t hs
  | dispatch => exact inv_dispatch s hs
  | finish tid err => exact inv_finish s tid err hs
  | graceDone tid => exact inv_graceDone s tid hs

theorem inv_runQ_of (s : QueueState) (hs : Inv s) (es : List QEvent) : Inv (runQ s es) := by
  induction es generalizing s with
  | nil => exact hs
  | cons e es ih => exact ih (stepQ s e).1 (inv_step s e hs)

theorem inv_runQ (es : List QEvent) : Inv (runQ initQ es) :=
  inv_runQ_of initQ inv_init es

theorem step_status_mono (s : QueueState) (hs : Inv s) (e : QEvent) (tid : Nat)
    (st st2 : TaskStatus) (h1 : statusOf s tid = some st)
    (h2 : statusOf (stepQ s e).1 tid = some st2) :
    st2 = st ∨ (∃ p, st = TaskStatus.queued p ∧ st2 = TaskStatus.processing)
      ∨ (st = TaskStatus.processing ∧ isTerminal st2 = true) := by
  cases e with
  | submit t =>
    by_cases hok : submitOk s t = true
    · simp only [stepQ, if_pos hok] at h2
      have hfr := hok
      simp only [submitOk, Bool.and_eq_true, decide_eq_true_eq] at hfr
      obtain ⟨⟨⟨hf1, hf2⟩, hf3⟩, hf4⟩ := hfr
      by_cases htt : stKey (t.tid, TaskStatus.queued (s.pendingCount + 1)) = tid
      · exfalso
        have htt2 : t.tid = tid := htt
        rw [← htt2] at h1
        unfold statusOf at h1
        rw [findK_eq_none hf1] at h1
        simp at h1
      · unfold statusOf at h1 h2
        rw [findK_cons_ne s.statuses htt] at h2
        left
        rw [h1] at h2
        exact (Option.some.inj h2).symm
    · simp only [stepQ, if_neg hok] at h2
      left
      rw [h1] at h2
      exact (Option.some.inj h2).symm
  | dispatch =>
    cases hch : s.channel with
    | nil =>
      simp only [stepQ, hch] at h2
      left
      rw [h1] at h2
      exact (Option.some.inj h2).symm
    | cons t rest =>
      cases hp : s.permits with
      | zero =>
        simp only [stepQ, hch, hp] at h2
        left
        rw [h1] at h2
        exact (Option.some.inj h2).symm
      | succ p =>
        simp only [stepQ, hch, hp] at h2
        by_cases htt : tid = t.tid
        · subst htt
          have htm : t ∈ s.channel := by rw [hch]; exact List.mem_cons_self t rest
          obtain ⟨pos, hpos⟩ := hs.chQueued t htm
          unfold statusOf at h1 h2
          rw [hpos] at h1
          rw [findK_updK_self stKey s.statuses t.tid
            (fun q => (q.1, TaskStatus.processing)) (fun a _ => rfl), hpos] at h2
          simp at h1 h2
          right; left
          exact ⟨pos, h1.symm, h2.symm⟩
        · unfold statusOf at h1 h2
          rw [findK_updK_ne stKey s.statuses t.tid
            (fun q => (q.1, TaskStatus.processing)) (fun a _ => rfl) htt] at h2
          left
          rw [h1] at h2
          exact (Option.some.inj h2).symm
  | finish tid2 err =>
    cases hf : findK hKey s.handlers tid2 with
    | none =>
      simp only [stepQ, hf] at h2
      left
      rw [h1] at h2
      exact (Option.some.inj h2).symm
    | some q =>
      obtain ⟨t, stg⟩ := q
      cases stg with
      | grace =>
        simp only [stepQ, hf] at h2
        left
        rw [h1] at h2
        exact (Option.some.inj h2).symm
      | running =>
        simp only [stepQ, hf] at h2
        by_cases htt : tid = tid2
        · subst htt
          have htmem := findK_mem hf
          have hproc0 := hs.hRun (t, HandlerStage.running) htmem rfl
          have htid0 := findK_key hf
          have htid : t.tid = tid := htid0
          have hproc : findK stKey s.statuses tid = some (tid, TaskStatus.processing) := by
            rw [← htid]; exact hproc0
          unfold statusOf at h1 h2
          rw [hproc] at h1
          rw [findK_updK_self stKey s.statuses tid
            (fun q => (q.1, resultStatus err)) (fun a _ => rfl), hproc] at h2
          simp at h1 h2
          right; right
          refine ⟨h1.symm, ?_⟩
          rw [← h2]
          exact isTerminal_resultStatus err
        · unfold statusOf at h1 h2
          rw [findK_updK_ne stKey s.statuses tid2
            (fun q => (q.1, resultStatus err)) (fun a _ => rfl) htt] at h2
          left
          rw [h1] at h2
          exact (Option.some.inj h2).symm
  | graceDone tid2 =>
    cases hf : findK hKey s.handlers tid2 with
    | none =>
      simp only [stepQ, hf] at h2
      left
      rw [h1] at h2
      exact (Option.some.inj h2).symm
    | some q =>
      obtain ⟨t, stg⟩ := q
      cases stg with
      | running =>
        simp only [stepQ, hf] at h2
        left
        rw [h1] at h2
        exact (Option.some.inj h2).symm
      | grace =>
        simp only [stepQ, hf] at h2
        by_cases htt : tid = tid2
        · exfalso
          subst htt
          unfold statusOf at h2
          rw [findK_eraseK_self] at h2
          simp at h2
        · unfold statusOf at h1 h2
          rw [findK_eraseK_ne s.statuses htt] at h2
          left
          rw [h1] at h2
          exact (Option.some.inj h2).symm

/-- C1.  For every sequence of atomic sections of the queue, at every reachable state
the number of tasks whose in-memory status is Processing is at most
MAX_CONCURRENT_TASKS: a task enters Processing only when the dispatch loop holds a
semaphore permit, and the permit is returned only when the spawned handler finishes. -/
theorem c1_processing_bounded (es : List QEvent) :
    countProcessing (runQ initQ es) ≤ MAX_CONCURRENT_TASKS := by
  have hs := inv_runQ es
  have h1 := hs.countEq
  have h2 : (runQ initQ es).handlers.countP (fun p => decide (p.2 = HandlerStage.running))
      ≤ (runQ initQ es).handlers.length := List.countP_le_length _
  have h3 := hs.permitsEq
  omega

/-- C6.  TaskStatus is strictly monotonic per task within a process lifetime: across
any atomic section, a status present before and after either stays equal, moves from
Queued to Processing, or moves from Processing to a terminal status; no step returns a
task to Queued or overwrites a terminal status with a non-terminal one. -/
theorem c6_status_monotonic (es : List QEvent) (e : QEvent) (tid : Nat)
    (st st2 : TaskStatus) (h1 : statusOf (runQ initQ es) tid = some st)
    (h2 : statusOf (stepQ (runQ initQ es) e).1 tid = some st2) :
    st2 = st ∨ (∃ p, st = TaskStatus.queued p ∧ st2 = TaskStatus.processing)
      ∨ (st = TaskStatus.processing ∧ isTerminal st2 = true) :=
  step_status_mono (runQ initQ es) (inv_runQ es) e tid st st2 h1 h2

/-- Witness for c6_status_monotonic: after submit and dispatch of task 0, the finish
section moves its status from Processing to Completed. -/
theorem c6_status_monotonic_witness :
    statusOf (runQ initQ [QEvent.submit ⟨0, 5⟩, QEvent.dispatch]) 0
        = some TaskStatus.processing
      ∧ (TaskStatus.completed = TaskStatus.processing
        ∨ (∃ p, TaskStatus.processing = TaskStatus.queued p
            ∧ TaskStatus.completed = TaskStatus.processing)
        ∨ (TaskStatus.processing = TaskStatus.processing
            ∧ isTerminal TaskStatus.completed = true)) :=
  ⟨by decide, c6_status_monotonic [QEvent.submit ⟨0, 5⟩, QEvent.dispatch]
    (QEvent.finish 0 none) 0 TaskStatus.processing TaskStatus.completed
    (by decide) (by decide)⟩

theorem stepQ_finish_aux (s : QueueState) (tid : Nat) (err : Option String) :
    (stepQ s (QEvent.finish tid err)).1.pendingCount = s.pendingCount
    ∧ (stepQ s (QEvent.finish tid err)).2 = none := by
  cases hf : findK hKey s.handlers tid with
  | none => simp [stepQ, hf]
  | some q =>
    obtain ⟨t, stg⟩ := q
    cases stg <;> simp [stepQ, hf]

theorem stepQ_graceDone_aux (s : QueueState) (tid : Nat) :
    (stepQ s (QEvent.graceDone tid)).1.pendingCount = s.pendingCount
    ∧ (stepQ s (QEvent.graceDone tid)).2 = none := by
  cases hf : findK hKey s.handlers tid with
  | none => simp [stepQ, hf]
  | some q =>
    obtain ⟨t, stg⟩ := q
    cases stg <;> simp [stepQ, hf]

theorem submitPositions_mono (es : List QEvent) (s : QueueState)
    (hnd : ∀ e ∈ es, e ≠ QEvent.dispatch) :
    (submitPositions s es).Pairwise (· < ·)
    ∧ ∀ x ∈ submitPositions s es, s.pendingCount < x := by
  induction es generalizing s with
  | nil => exact ⟨List.Pairwise.nil, by simp [submitPositions]⟩
  | cons e es ih =>
    have hnd2 : ∀ e2 ∈ es, e2 ≠ QEvent.dispatch :=
      fun e2 he2 => hnd e2 (List.mem_cons_of_mem e he2)
    cases e with
    | dispatch => exact absurd rfl (hnd QEvent.dispatch (List.mem_cons_self _ _))
    | submit t =>
      by_cases hok : submitOk s t = true
      · have hstep : (stepQ s (QEvent.submit t)).2 = some (s.pendingCount + 1) := by
          simp [stepQ, hok]
        have hpend : (stepQ s (QEvent.submit t)).1.pendingCount = s.pendingCount + 1 := by
          simp [stepQ, hok]
        obtain ⟨ihp, ihb⟩ := ih (stepQ s (QEvent.submit t)).1 hnd2
        constructor
        · show (submitPositions s (QEvent.submit t :: es)).Pairwise (· < ·)
          simp only [submitPositions, hstep, Option.toList_some, List.singleton_append]
          refine List.pairwise_cons.mpr ⟨?_, ihp⟩
          intro x hx
          have hb := ihb x hx
          omega
        · intro x hx
          simp only [submitPositions, hstep, Option.toList_some, List.singleton_append,
            List.mem_cons] at hx
          rcases hx with rfl | hx2
          · omega
          · have hb := ihb x hx2
            omega
      · have hstep : (stepQ s (QEvent.submit t)).2 = none := by simp [stepQ, hok]
        have hpend : (stepQ s (QEvent.submit t)).1 = s := by simp [stepQ, hok]
        obtain ⟨ihp, ihb⟩ := ih (stepQ s (QEvent.submit t)).1 hnd2
        constructor
        · show (submitPositions s (QEvent.submit t :: es)).Pairwise (· < ·)
          simp only [submitPositions, hstep, Option.toList_none, List.nil_append]
          exact ihp
        · intro x hx
          simp only [submitPositions, hstep, Option.toList_none, List.nil_append] at hx
          have hb := ihb x hx
          rw [hpend] at hb
          exact hb
    | finish tid err =>
      have ha := stepQ_finish_aux s tid err
      obtain ⟨ihp, ihb⟩ := ih (stepQ s (QEvent.finish tid err)).1 hnd2
      constructor
      · show (submitPositions s (QEvent.finish tid err :: es)).Pairwise (· < ·)
        simp only [submitPositions, ha.2, Option.toList_none, List.nil_append]
        exact ihp
      · intro x hx
        simp only [submitPositions, ha.2, Option.toList_none, List.nil_append] at hx
        have hb := ihb x hx
        rw [ha.1] at hb
        exact hb
    | graceDone tid =>
      have ha := stepQ_graceDone_aux s tid
      obtain ⟨ihp, ihb⟩ := ih (stepQ s (QEvent.graceDone tid)).1 hnd2
      constructor
      · show (submitPositions s (QEvent.graceDone tid :: es)).Pairwise (· < ·)
        simp only [submitPositions, ha.2, Option.toList_none, List.nil_append]
        exact ihp
      · intro x hx
        simp only [submitPositions, ha.2, Option.toList_none, List.nil_append] at hx
        have hb := ihb x hx
        rw [ha.1] at hb
        exact hb

/-- C10.  The concurrency permit outlives the terminal status: the finish section
(terminal status write plus durable delete) never changes the number of free permits;
when every one of the MAX_CONCURRENT_TASKS slots is held by a handler inside its grace
sleep, the dispatch section is a no-op, so no queued task can enter Processing; only
the end of the grace sleep (graceDone) returns a permit. -/
theorem c10_permit_held_through_grace :
    (∀ (s : QueueState) (tid : Nat) (err : Option String),
      ((stepQ s (QEvent.finish tid err)).1).permits = s.permits)
    ∧ (∀ es : List QEvent, countGrace (runQ initQ es) = MAX_CONCURRENT_TASKS →
        stepQ (runQ initQ es) QEvent.dispatch = (runQ initQ es, none))
    ∧ (∀ (s : QueueState) (tid : Nat) (t : MTask),
        findK hKey s.handlers tid = some (t, HandlerStage.grace) →
        ((stepQ s (QEvent.graceDone tid)).1).permits = s.permits + 1) := by
  refine ⟨?_, ?_, ?_⟩
  · intro s tid err
    cases hf : findK hKey s.handlers tid with
    | none => simp [stepQ, hf]
    | some q =>
      obtain ⟨t, stg⟩ := q
      cases stg <;> simp [stepQ, hf]
  · intro es hcg
    have hs := inv_runQ es
    have hle : countGrace (runQ initQ es) ≤ (runQ initQ es).handlers.length :=
      List.countP_le_length _
    have hpe := hs.permitsEq
    have hperm : (runQ initQ es).permits = 0 := by omega
    cases hch : (runQ initQ es).channel with
    | nil => simp [stepQ, hch]
    | cons t rest => simp [stepQ, hch, hperm]
  · intro s tid t hf
    simp [stepQ, hf]

/-- Witness for c10_permit_held_through_grace: after two submissions, two dispatches
and two finishes, both permits are held by handlers in their grace sleep, dispatch is
a no-op, and graceDone returns a permit. -/
theorem c10_permit_held_through_grace_witness :
    countGrace (runQ initQ [QEvent.submit ⟨0, 1⟩, QEvent.submit ⟨1, 1⟩, QEvent.dispatch,
        QEvent.dispatch, QEvent.finish 0 none, QEvent.finish 1 none])
      = MAX_CONCURRENT_TASKS
    ∧ ((stepQ (runQ initQ [QEvent.submit ⟨0, 1⟩, QEvent.submit ⟨1, 1⟩, QEvent.dispatch,
        QEvent.dispatch, QEvent.finish 0 none, QEvent.finish 1 none])
        (QEvent.finish 5 none)).1).permits
      = (runQ initQ [QEvent.submit ⟨0, 1⟩, QEvent.submit ⟨1, 1⟩, QEvent.dispatch,
        QEvent.dispatch, QEvent.finish 0 none, QEvent.finish 1 none]).permits
    ∧ stepQ (runQ initQ [QEvent.submit ⟨0, 1⟩, QEvent.submit ⟨1, 1⟩, QEvent.dispatch,
        QEvent.dispatch, QEvent.finish 0 none, QEvent.finish 1 none]) QEvent.dispatch
      = (runQ initQ [QEvent.submit ⟨0, 1⟩, QEvent.submit ⟨1, 1⟩, QEvent.dispatch,
        QEvent.dispatch, QEvent.finish 0 none, QEvent.finish 1 none], none)
    ∧ ((stepQ (runQ initQ [QEvent.submit ⟨0, 1⟩, QEvent.submit ⟨1, 1⟩, QEvent.dispatch,
        QEvent.dispatch, QEvent.finish 0 none, QEvent.finish 1 none])
        (QEvent.graceDone 0)).1).permits
      = (runQ initQ [QEvent.submit ⟨0, 1⟩, QEvent.submit ⟨1, 1⟩, QEvent.dispatch,
        QEvent.dispatch, QEvent.finish 0 none, QEvent.finish 1 none]).permits + 1 :=
  ⟨by decide,
   c10_permit_held_through_grace.1 _ 5 none,
   c10_permit_held_through_grace.2.1 [QEvent.submit ⟨0, 1⟩, QEvent.submit ⟨1, 1⟩,
     QEvent.dispatch, QEvent.dispatch, QEvent.finish 0 none, QEvent.finish 1 none]
     (by decide),
   c10_permit_held_through_grace.2.2 _ 0 ⟨0, 1⟩ (by decide)⟩

/-- C4 counterexample: submit, dispatch, submit makes two submit calls return the same
position 1, because the dispatch decrements the pending counter the position is
computed from; positions are reused, refuting monotonic never-reused assignment. -/
theorem c4_counterexample :
    submitPositions initQ [QEvent.submit ⟨0, 0⟩, QEvent.dispatch, QEvent.submit ⟨1, 0⟩]
        = [1, 1]
      ∧ ¬ (submitPositions initQ [QEvent.submit ⟨0, 0⟩, QEvent.dispatch,
          QEvent.submit ⟨1, 0⟩]).Pairwise (· < ·) := by
  refine ⟨by decide, ?_⟩
  intro hp
  have h1 := (List.pairwise_cons.mp (by
    have he : submitPositions initQ [QEvent.submit ⟨0, 0⟩, QEvent.dispatch,
        QEvent.submit ⟨1, 0⟩] = [1, 1] := by decide
    rw [he] at hp
    exact hp)).1 1 (by simp)
  omega

/-- C4 amended: positions returned by successive submit calls are strictly increasing
and never reused only across stretches with no interleaved dispatch (a dispatch
decrements the pending counter, after which a position can repeat); the status a
submit installs is Queued with position equal to the count of not-yet-dispatched
tasks plus one. -/
theorem c4_amended (es : List QEvent) (t : MTask)
    (hnd : ∀ e ∈ es, e ≠ QEvent.dispatch)
    (hok : submitOk (runQ initQ es) t = true) :
    (submitPositions initQ es).Pairwise (· < ·)
    ∧ (stepQ (runQ initQ es) (QEvent.submit t)).2
        = some ((runQ initQ es).channel.length + 1)
    ∧ statusOf (stepQ (runQ initQ es) (QEvent.submit t)).1 t.tid
        = some (TaskStatus.queued ((runQ initQ es).channel.length + 1)) := by
  have hpendEq := (inv_runQ es).pendEq
  refine ⟨(submitPositions_mono es initQ hnd).1, ?_, ?_⟩
  · simp only [stepQ, if_pos hok]
    rw [hpendEq]
  · simp only [stepQ, if_pos hok, statusOf]
    rw [findK_cons_self (runQ initQ es).statuses
      (show stKey (t.tid, TaskStatus.queued ((runQ initQ es).pendingCount + 1)) = t.tid
        from rfl), hpendEq]
    rfl

/-- Witness for c4_amended: two dispatch-free submissions get positions 1 and 2, and a
third submission is recorded Queued at position 3 = pending count plus one. -/
theorem c4_amended_witness :
    (∀ e ∈ [QEvent.submit (⟨0, 0⟩ : MTask), QEvent.submit ⟨1, 0⟩],
        e ≠ QEvent.dispatch)
    ∧ ((submitPositions initQ [QEvent.submit ⟨0, 0⟩, QEvent.submit ⟨1, 0⟩]).Pairwise
        (· < ·)
      ∧ (stepQ (runQ initQ [QEvent.submit ⟨0, 0⟩, QEvent.submit ⟨1, 0⟩])
          (QEvent.submit ⟨2, 0⟩)).2
        = some ((runQ initQ [QEvent.submit ⟨0, 0⟩, QEvent.submit ⟨1, 0⟩]).channel.length
            + 1)
      ∧ statusOf (stepQ (runQ initQ [QEvent.submit ⟨0, 0⟩, QEvent.submit ⟨1, 0⟩])
          (QEvent.submit ⟨2, 0⟩)).1 (MTask.tid ⟨2, 0⟩)
        = some (TaskStatus.queued
            ((runQ initQ [QEvent.submit ⟨0, 0⟩, QEvent.submit ⟨1, 0⟩]).channel.length
              + 1))) :=
  ⟨by decide,
   c4_amended [QEvent.submit ⟨0, 0⟩, QEvent.submit ⟨1, 0⟩] ⟨2, 0⟩ (by decide) (by decide)⟩

theorem statusOf_step_none (s : QueueState) (e : QEvent) (tid : Nat) (st : TaskStatus)
    (h1 : statusOf s tid = some st) (h2 : statusOf (stepQ s e).1 tid = none) :
    e = QEvent.graceDone tid := by
  unfold statusOf at h1 h2
  cases hfs : findK stKey s.statuses tid with
  | none => rw [hfs] at h1; simp at h1
  | some a =>
  cases e with
  | submit t =>
    by_cases hok : submitOk s t = true
    · simp only [stepQ, if_pos hok] at h2
      by_cases htt : stKey (t.tid, TaskStatus.queued (s.pendingCount + 1)) = tid
      · rw [findK_cons_self s.statuses htt] at h2
        simp at h2
      · rw [findK_cons_ne s.statuses htt, hfs] at h2
        simp at h2
    · simp only [stepQ, if_neg hok] at h2
      rw [hfs] at h2
      simp at h2
  | dispatch =>
    cases hch : s.channel with
    | nil =>
      simp only [stepQ, hch] at h2
      rw [hfs] at h2
      simp at h2
    | cons t rest =>
      cases hp : s.permits with
      | zero =>
        simp only [stepQ, hch, hp] at h2
        rw [hfs] at h2
        simp at h2
      | succ p =>
        simp only [stepQ, hch, hp] at h2
        by_cases htt : tid = t.tid
        · rw [htt] at h2 hfs
          rw [findK_updK_self stKey s.statuses t.tid
            (fun q => (q.1, TaskStatus.processing)) (fun a _ => rfl), hfs] at h2
          simp at h2
        · rw [findK_updK_ne stKey s.statuses t.tid
            (fun q => (q.1, TaskStatus.processing)) (fun a _ => rfl) htt, hfs] at h2
          simp at h2
  | finish tid2 err =>
    cases hf : findK hKey s.handlers tid2 with
    | none =>
      simp only [stepQ, hf] at h2
      rw [hfs] at h2
      simp at h2
    | some q =>
      obtain ⟨t, stg⟩ := q
      cases stg with
      | grace =>
        simp only [stepQ, hf] at h2
        rw [hfs] at h2
        simp at h2
      | running =>
        simp only [stepQ, hf] at h2
        by_cases htt : tid = tid2
        · rw [htt] at h2 hfs
          rw [findK_updK_self stKey s.statuses tid2
            (fun q => (q.1, resultStatus err)) (fun a _ => rfl), hfs] at h2
          simp at h2
        · rw [findK_updK_ne stKey s.statuses tid2
            (fun q => (q.1, resultStatus err)) (fun a _ => rfl) htt, hfs] at h2
          simp at h2
  | graceDone tid2 =>
    cases hf : findK hKey s.handlers tid2 with
    | none =>
      simp only [stepQ, hf] at h2
      rw [hfs] at h2
      simp at h2
    | some q =>
      obtain ⟨t, stg⟩ := q
      cases stg with
      | running =>
        simp only [stepQ, hf] at h2
        rw [hfs] at h2
        simp at h2
      | grace =>
        by_cases htt : tid = tid2
        · rw [htt]
        · exfalso
          simp only [stepQ, hf] at h2
          rw [findK_eraseK_ne s.statuses htt, hfs] at h2
          simp at h2

/-- C5 counterexample: after submit, dispatch and finish of task 0, the task sits in
its 60-second grace period with in-memory status Completed, yet its durable tasks row
is already gone — refuting the claim that the durable row is still present during the
grace period and deleted only after it. -/
theorem c5_counterexample :
    statusOf (runQ initQ [QEvent.submit ⟨0, 0⟩, QEvent.dispatch, QEvent.finish 0 none]) 0
        = some TaskStatus.completed
      ∧ findK hKey (runQ initQ [QEvent.submit ⟨0, 0⟩, QEvent.dispatch,
          QEvent.finish 0 none]).handlers 0 = some (⟨0, 0⟩, HandlerStage.grace)
      ∧ 0 ∉ (runQ initQ [QEvent.submit ⟨0, 0⟩, QEvent.dispatch,
          QEvent.finish 0 none]).dbTasks := by
  refine ⟨by decide, by decide, by decide⟩

/-- C5 amended: when a task finishes, its terminal in-memory status is written and its
durable row is deleted immediately, before the grace sleep; throughout the grace
period the task keeps a terminal status in the status map and stays in its owner
per-user list (so a status query shortly after completion still sees the outcome),
while the durable row is already gone; the in-memory entries are removed only by the
end-of-grace cleanup step. -/
theorem c5_amended :
    (∀ (es : List QEvent) (tid : Nat) (err : Option String) (t : MTask),
      findK hKey (runQ initQ es).handlers tid = some (t, HandlerStage.running) →
        statusOf (stepQ (runQ initQ es) (QEvent.finish tid err)).1 tid
            = some (resultStatus err)
          ∧ tid ∉ (stepQ (runQ initQ es) (QEvent.finish tid err)).1.dbTasks)
    ∧ (∀ (es : List QEvent) (tid : Nat) (t : MTask),
        findK hKey (runQ initQ es).handlers tid = some (t, HandlerStage.grace) →
          ∃ st, statusOf (runQ initQ es) tid = some st ∧ isTerminal st = true
            ∧ tid ∈ userList (runQ initQ es).userTasks t.chat
            ∧ tid ∉ (runQ initQ es).dbTasks)
    ∧ (∀ (s : QueueState) (e : QEvent) (tid : Nat) (st : TaskStatus),
        statusOf s tid = some st → statusOf (stepQ s e).1 tid = none →
          e = QEvent.graceDone tid) := by
  refine ⟨?_, ?_, statusOf_step_none⟩
  · intro es tid err t hf
    have hs := inv_runQ es
    have htmem := findK_mem hf
    have hproc0 := hs.hRun (t, HandlerStage.running) htmem rfl
    have htid0 := findK_key hf
    have htid : t.tid = tid := htid0
    have hproc : findK stKey (runQ initQ es).statuses tid
        = some (tid, TaskStatus.processing) := by
      rw [← htid]
      exact hproc0
    constructor
    · simp only [stepQ, hf, statusOf]
      rw [findK_updK_self stKey (runQ initQ es).statuses tid
        (fun q => (q.1, resultStatus err)) (fun a _ => rfl), hproc]
      rfl
    · simp only [stepQ, hf]
      simp [List.mem_filter]
  · intro es tid t hf
    have hs := inv_runQ es
    have htmem := findK_mem hf
    have htid0 := findK_key hf
    have htid : t.tid = tid := htid0
    obtain ⟨st, hst0, hterm⟩ := hs.hGrace (t, HandlerStage.grace) htmem rfl
    refine ⟨st, ?_, hterm, ?_, ?_⟩
    · unfold statusOf
      rw [← htid, hst0]
      rfl
    · rw [← htid]
      exact hs.hMem (t, HandlerStage.grace) htmem
    · rw [← htid]
      exact hs.dbGrace (t, HandlerStage.grace) htmem rfl

/-- Witness for c5_amended at a concrete run: the finish of dispatched task 0 records
Completed and removes the durable row; afterwards the grace-stage handler still sees a
terminal status and the user-list entry; the status entry disappears only at the
graceDone step. -/
theorem c5_amended_witness :
    (statusOf (stepQ (runQ initQ [QEvent.submit ⟨0, 4⟩, QEvent.dispatch])
          (QEvent.finish 0 none)).1 0 = some (resultStatus none)
      ∧ 0 ∉ (stepQ (runQ initQ [QEvent.submit ⟨0, 4⟩, QEvent.dispatch])
          (QEvent.finish 0 none)).1.dbTasks)
    ∧ (∃ st, statusOf (runQ initQ [QEvent.submit ⟨0, 4⟩, QEvent.dispatch,
          QEvent.finish 0 none]) 0 = some st ∧ isTerminal st = true
        ∧ 0 ∈ userList (runQ initQ [QEvent.submit ⟨0, 4⟩, QEvent.dispatch,
            QEvent.finish 0 none]).userTasks (MTask.chat ⟨0, 4⟩)
        ∧ 0 ∉ (runQ initQ [QEvent.submit ⟨0, 4⟩, QEvent.dispatch,
            QEvent.finish 0 none]).dbTasks)
    ∧ QEvent.graceDone 0 = QEvent.graceDone 0 :=
  ⟨c5_amended.1 [QEvent.submit ⟨0, 4⟩, QEvent.dispatch] 0 none ⟨0, 4⟩ (by decide),
   c5_amended.2.1 [QEvent.submit ⟨0, 4⟩, QEvent.dispatch, QEvent.finish 0 none]
     0 ⟨0, 4⟩ (by decide),
   c5_amended.2.2 (runQ initQ [QEvent.submit ⟨0, 4⟩, QEvent.dispatch,
       QEvent.finish 0 none]) (QEvent.graceDone 0) 0 TaskStatus.completed
     (by decide) (by decide)⟩

/-- C2.  take on the pending-selection registries is consuming and idempotent: a first
take of a staged short id returns the record, a second take returns none, and after
the first take the record is gone from the in-memory map and from the durable table;
this holds for pending downloads and for pending conversions alike. -/
theorem c2_take_idempotent (dreg : DownloadReg) (creg : ConversionReg) (sid : String)
    (rd : PendingDownloadRec) (rc : PendingConversionRec)
    (hd : findK sKey dreg.mem sid = some (sid, rd))
    (hc : findK sKey creg.mem sid = some (sid, rc)) :
    (takePendingDownload dreg sid true).1 = some rd
    ∧ (takePendingDownload (takePendingDownload dreg sid true).2 sid true).1 = none
    ∧ findK sKey (takePendingDownload dreg sid true).2.mem sid = none
    ∧ findK pdRowKey (takePendingDownload dreg sid true).2.store sid = none
    ∧ (takePendingConversion creg sid true).1 = some rc
    ∧ (takePendingConversion (takePendingConversion creg sid true).2 sid true).1 = none
    ∧ findK sKey (takePendingConversion creg sid true).2.mem sid = none
    ∧ findK pcRowKey (takePendingConversion creg sid true).2.store sid = none := by
  refine ⟨?_, ?_, ?_, ?_, ?_, ?_, ?_, ?_⟩
  · simp [takePendingDownload, hd]
  · simp [takePendingDownload, findK_eraseK_self]
  · simp [takePendingDownload, findK_eraseK_self]
  · simp [takePendingDownload, findK_eraseK_self]
  · simp [takePendingConversion, hc]
  · simp [takePendingConversion, findK_eraseK_self]
  · simp [takePendingConversion, findK_eraseK_self]
  · simp [takePendingConversion, findK_eraseK_self]

/-- Witness for c2_take_idempotent on concrete one-entry registries. -/
theorem c2_take_idempotent_witness :
    (takePendingDownload ⟨[⟨"ab", "u", 1, 2, 0⟩], [("ab", ⟨"u", 1, 2⟩)]⟩ "ab" true).1
        = some ⟨"u", 1, 2⟩
    ∧ (takePendingDownload (takePendingDownload
        ⟨[⟨"ab", "u", 1, 2, 0⟩], [("ab", ⟨"u", 1, 2⟩)]⟩ "ab" true).2 "ab" true).1 = none
    ∧ findK sKey (takePendingDownload
        ⟨[⟨"ab", "u", 1, 2, 0⟩], [("ab", ⟨"u", 1, 2⟩)]⟩ "ab" true).2.mem "ab" = none
    ∧ findK pdRowKey (takePendingDownload
        ⟨[⟨"ab", "u", 1, 2, 0⟩], [("ab", ⟨"u", 1, 2⟩)]⟩ "ab" true).2.store "ab" = none
    ∧ (takePendingConversion ⟨[⟨"ab", "f.mp4", none, 3, 4, 0⟩],
        [("ab", ⟨"f.mp4", none, 3, 4⟩)]⟩ "ab" true).1 = some ⟨"f.mp4", none, 3, 4⟩
    ∧ (takePendingConversion (takePendingConversion ⟨[⟨"ab", "f.mp4", none, 3, 4, 0⟩],
        [("ab", ⟨"f.mp4", none, 3, 4⟩)]⟩ "ab" true).2 "ab" true).1 = none
    ∧ findK sKey (takePendingConversion ⟨[⟨"ab", "f.mp4", none, 3, 4, 0⟩],
        [("ab", ⟨"f.mp4", none, 3, 4⟩)]⟩ "ab" true).2.mem "ab" = none
    ∧ findK pcRowKey (takePendingConversion ⟨[⟨"ab", "f.mp4", none, 3, 4, 0⟩],
        [("ab", ⟨"f.mp4", none, 3, 4⟩)]⟩ "ab" true).2.store "ab" = none :=
  c2_take_idempotent ⟨[⟨"ab", "u", 1, 2, 0⟩], [("ab", ⟨"u", 1, 2⟩)]⟩
    ⟨[⟨"ab", "f.mp4", none, 3, 4, 0⟩], [("ab", ⟨"f.mp4", none, 3, 4⟩)]⟩ "ab"
    ⟨"u", 1, 2⟩ ⟨"f.mp4", none, 3, 4⟩ (by decide) (by decide)

/-- C8.  Staging a pending download or a pending conversion never fails observably:
whatever the outcome of the durable INSERT (dbOk), the call returns the ShortId and
the record is present in the in-memory map. -/
theorem c8_stage_never_fails (dreg : DownloadReg) (creg : ConversionReg) (sid : String)
    (url filename : String) (thumb : Option String) (chat : Int) (msg : Int)
    (now : Int) (dbOk : Bool) :
    (addPendingDownload dreg sid url chat msg now dbOk).1 = sid
    ∧ findK sKey (addPendingDownload dreg sid url chat msg now dbOk).2.mem sid
        = some (sid, ⟨url, chat, msg⟩)
    ∧ (addPendingConversion creg sid filename thumb chat msg now dbOk).1 = sid
    ∧ findK sKey (addPendingConversion creg sid filename thumb chat msg now dbOk).2.mem sid
        = some (sid, ⟨filename, thumb, chat, msg⟩) := by
  refine ⟨rfl, ?_, rfl, ?_⟩
  · show findK sKey (insertS dreg.mem sid ⟨url, chat, msg⟩) sid = _
    unfold insertS
    rw [findK_cons_self _ (show sKey (sid, (⟨url, chat, msg⟩ : PendingDownloadRec)) = sid
      from rfl)]
  · show findK sKey (insertS creg.mem sid ⟨filename, thumb, chat, msg⟩) sid = _
    unfold insertS
    rw [findK_cons_self _
      (show sKey (sid, (⟨filename, thumb, chat, msg⟩ : PendingConversionRec)) = sid
        from rfl)]

/-- C7.  TTL boundary for pending downloads: a row strictly older than the 24 h cutoff
is absent from the not-expired load (no loaded row carries its short id) and is
removed by the expiry purge; a row whose age is one second short of the TTL
(created_at = cutoff + 1) is loaded and survives the purge. -/
theorem c7_ttl_boundary (now : Int) (table : List PendingDownloadDbRow)
    (r : PendingDownloadDbRow) (hmem : r ∈ table)
    (hnd : (keysK pdRowKey table).Nodup) :
    (r.created_at < now - TASK_TTL_SECONDS →
      (∀ q ∈ get_all_pending_downloads now table, q.short_id ≠ r.short_id)
      ∧ r ∉ (delete_expired_pending_downloads now table).2
      ∧ 1 ≤ (delete_expired_pending_downloads now table).1)
    ∧ (r.created_at = now - TASK_TTL_SECONDS + 1 →
      ({ short_id := r.short_id, url := r.url, chat_id := r.chat_id,
         message_id := r.message_id } : PendingDownloadRow)
          ∈ get_all_pending_downloads now table
      ∧ r ∈ (delete_expired_pending_downloads now table).2) := by
  constructor
  · intro hold
    refine ⟨?_, ?_, ?_⟩
    · intro q hq hcq
      unfold get_all_pending_downloads at hq
      obtain ⟨r2, hr2f, hr2e⟩ := List.mem_map.mp hq
      have hr2mem : r2 ∈ table := (List.mem_filter.mp hr2f).1
      have hr2cr := (List.mem_filter.mp hr2f).2
      simp only [decide_eq_true_eq] at hr2cr
      have hqs : q.short_id = r2.short_id := by rw [← hr2e]
      have hsid : pdRowKey r2 = r.short_id := by
        show r2.short_id = r.short_id
        rw [← hqs, hcq]
      have h1 := findK_eq_of_mem_nodup hnd hr2mem hsid
      have h2 := findK_eq_of_mem_nodup hnd hmem
        (show pdRowKey r = r.short_id from rfl)
      rw [h2] at h1
      have hrr : r = r2 := Option.some.inj h1
      rw [← hrr] at hr2cr
      omega
    · intro hmem2
      have hf := (List.mem_filter.mp hmem2).2
      simp only [decide_eq_true_eq] at hf
      omega
    · show 1 ≤ (table.filter
        (fun r2 => decide (r2.created_at ≤ now - TASK_TTL_SECONDS))).length
      have hrf : r ∈ table.filter
          (fun r2 => decide (r2.created_at ≤ now - TASK_TTL_SECONDS)) :=
        List.mem_filter.mpr ⟨hmem, by simp only [decide_eq_true_eq]; omega⟩
      have hpos := List.length_pos.mpr (List.ne_nil_of_mem hrf)
      omega
  · intro heq
    constructor
    · unfold get_all_pending_downloads
      exact List.mem_map.mpr
        ⟨r, List.mem_filter.mpr ⟨hmem, by simp only [decide_eq_true_eq]; omega⟩, rfl⟩
    · exact List.mem_filter.mpr ⟨hmem, by simp only [decide_eq_true_eq]; omega⟩

/-- Witness for c7_ttl_boundary: table with one expired row (age 2 days) and one row a
second short of expiry, at now = 172800 and cutoff 86400. -/
theorem c7_ttl_boundary_witness :
    ((∀ q ∈ get_all_pending_downloads 172800
        [⟨"old", "u1", 1, 1, 0⟩, ⟨"new", "u2", 2, 2, 86401⟩], q.short_id ≠ "old")
      ∧ (⟨"old", "u1", 1, 1, 0⟩ : PendingDownloadDbRow)
          ∉ (delete_expired_pending_downloads 172800
            [⟨"old", "u1", 1, 1, 0⟩, ⟨"new", "u2", 2, 2, 86401⟩]).2
      ∧ 1 ≤ (delete_expired_pending_downloads 172800
            [⟨"old", "u1", 1, 1, 0⟩, ⟨"new", "u2", 2, 2, 86401⟩]).1)
    ∧ (({ short_id := "new", url := "u2", chat_id := 2, message_id := 2 }
          : PendingDownloadRow)
        ∈ get_all_pending_downloads 172800
          [⟨"old", "u1", 1, 1, 0⟩, ⟨"new", "u2", 2, 2, 86401⟩]
      ∧ (⟨"new", "u2", 2, 2, 86401⟩ : PendingDownloadDbRow)
        ∈ (delete_expired_pending_downloads 172800
          [⟨"old", "u1", 1, 1, 0⟩, ⟨"new", "u2", 2, 2, 86401⟩]).2) :=
  ⟨(c7_ttl_boundary 172800 [⟨"old", "u1", 1, 1, 0⟩, ⟨"new", "u2", 2, 2, 86401⟩]
      ⟨"old", "u1", 1, 1, 0⟩ (by decide) (by decide)).1 (by decide),
   (c7_ttl_boundary 172800 [⟨"old", "u1", 1, 1, 0⟩, ⟨"new", "u2", 2, 2, 86401⟩]
      ⟨"new", "u2", 2, 2, 86401⟩ (by decide) (by decide)).2 (by decide)⟩

/-- C9.  insert_task on an id already present updates only the status column: the
result is the old table with exactly the matching row's status replaced, no row is
added, every other row is untouched, and the matching row keeps every other field. -/
theorem c9_upsert_status_only (table : List DbTaskRow) (r q : DbTaskRow)
    (hq : q ∈ table) (hid : q.id = r.id) :
    insert_task table r
        = table.map (fun w => if w.id = r.id then { w with status := r.status } else w)
    ∧ (insert_task table r).length = table.length
    ∧ { q with status := r.status } ∈ insert_task table r
    ∧ ∀ w ∈ table, w.id ≠ r.id → w ∈ insert_task table r := by
  have hex : r.id ∈ table.map DbTaskRow.id := by
    rw [← hid]
    exact List.mem_map_of_mem DbTaskRow.id hq
  have hit : insert_task table r
      = table.map (fun w => if w.id = r.id then { w with status := r.status } else w) := by
    simp [insert_task, hex]
  refine ⟨hit, ?_, ?_, ?_⟩
  · rw [hit]
    exact List.length_map _ _
  · rw [hit]
    refine List.mem_map.mpr ⟨q, hq, ?_⟩
    rw [if_pos hid]
  · intro w hw hne
    rw [hit]
    refine List.mem_map.mpr ⟨w, hw, ?_⟩
    rw [if_neg hne]

/-- Witness for c9_upsert_status_only: re-inserting id a with a new status keeps the
old row's other columns and the table length. -/
theorem c9_upsert_status_only_witness :
    insert_task [⟨"a", "download", 1, 2, "uf", "queued", some "u", some 720,
        none, none, none, 5⟩]
      ⟨"a", "download", 9, 9, "zz", "processing", none, none, none, none, none, 77⟩
        = [⟨"a", "download", 1, 2, "uf", "queued", some "u", some 720,
            none, none, none, 5⟩].map
          (fun w => if w.id = "a" then { w with status := "processing" } else w)
    ∧ (insert_task [⟨"a", "download", 1, 2, "uf", "queued", some "u", some 720,
        none, none, none, 5⟩]
      ⟨"a", "download", 9, 9, "zz", "processing", none, none, none, none, none, 77⟩).length
        = 1
    ∧ (⟨"a", "download", 1, 2, "uf", "processing", some "u", some 720,
        none, none, none, 5⟩ : DbTaskRow)
        ∈ insert_task [⟨"a", "download", 1, 2, "uf", "queued", some "u", some 720,
            none, none, none, 5⟩]
          ⟨"a", "download", 9, 9, "zz", "processing", none, none, none, none, none, 77⟩ := by
  have h := c9_upsert_status_only
    [⟨"a", "download", 1, 2, "uf", "queued", some "u", some 720, none, none, none, 5⟩]
    ⟨"a", "download", 9, 9, "zz", "processing", none, none, none, none, none, 77⟩
    ⟨"a", "download", 1, 2, "uf", "queued", some "u", some 720, none, none, none, 5⟩
    (by decide) (by decide)
  exact ⟨h.1, h.2.1, h.2.2.1⟩

theorem handleTaskRow_table_sub (acc : RecoveryOut) (r : DbTaskRow) :
    ∀ q ∈ (handleTaskRow acc r).table, q ∈ acc.table := by
  intro q hq
  unfold handleTaskRow at hq
  split_ifs at hq
  · exact (List.mem_filter.mp hq).1
  · exact (List.mem_filter.mp hq).1
  · exact hq

theorem foldl_handle_table_sub (rows : List DbTaskRow) (acc : RecoveryOut) :
    ∀ q ∈ (rows.foldl handleTaskRow acc).table, q ∈ acc.table := by
  induction rows generalizing acc with
  | nil => intro q hq; exact hq
  | cons x rows ih =>
    intro q hq
    exact handleTaskRow_table_sub acc x q (ih (handleTaskRow acc x) q hq)

theorem foldl_handle_files_mono (rows : List DbTaskRow) (acc : RecoveryOut) :
    ∀ f ∈ acc.deletedFiles, f ∈ (rows.foldl handleTaskRow acc).deletedFiles := by
  induction rows generalizing acc with
  | nil => intro f hf; exact hf
  | cons x rows ih =>
    intro f hf
    apply ih
    unfold handleTaskRow
    split_ifs
    · exact List.mem_append_left _ (List.mem_append_left _ hf)
    · exact List.mem_append_left _ (List.mem_append_left _ hf)
    · exact hf

theorem foldl_handle_table_id (rows : List DbTaskRow) (acc : RecoveryOut) (r : DbTaskRow)
    (hr : r ∈ rows) (hh : r.status = "processing" ∨ r.status = "queued") :
    ∀ q ∈ (rows.foldl handleTaskRow acc).table, q.id ≠ r.id := by
  induction rows generalizing acc with
  | nil => simp at hr
  | cons x rows ih =>
    rcases List.mem_cons.mp hr with rfl | hr2
    · intro q hq
      have hq2 := foldl_handle_table_sub rows (handleTaskRow acc r) q hq
      unfold handleTaskRow at hq2
      rcases hh with h | h
      · rw [if_pos h] at hq2
        have hne := (List.mem_filter.mp hq2).2
        simpa using hne
      · rw [if_neg (by rw [h]; decide), if_pos h] at hq2
        have hne := (List.mem_filter.mp hq2).2
        simpa using hne
    · intro q hq
      exact ih (handleTaskRow acc x) hr2 q hq

theorem foldl_handle_files_mem (rows : List DbTaskRow) (acc : RecoveryOut)
    (r : DbTaskRow) (hr : r ∈ rows)
    (hh : r.status = "processing" ∨ r.status = "queued") :
    (∀ f, r.filename = some f → f ∈ (rows.foldl handleTaskRow acc).deletedFiles)
    ∧ (∀ f, r.thumbnail_path = some f
        → f ∈ (rows.foldl handleTaskRow acc).deletedFiles) := by
  induction rows generalizing acc with
  | nil => simp at hr
  | cons x rows ih =>
    rcases List.mem_cons.mp hr with rfl | hr2
    · constructor
      · intro f hf
        rw [List.foldl_cons]
        apply foldl_handle_files_mono
        unfold handleTaskRow
        rcases hh with h | h
        · rw [if_pos h]
          refine List.mem_append_left _ (List.mem_append_right _ ?_)
          rw [hf]
          simp
        · rw [if_neg (by rw [h]; decide), if_pos h]
          refine List.mem_append_left _ (List.mem_append_right _ ?_)
          rw [hf]
          simp
      · intro f hf
        rw [List.foldl_cons]
        apply foldl_handle_files_mono
        unfold handleTaskRow
        rcases hh with h | h
        · rw [if_pos h]
          refine List.mem_append_right _ ?_
          rw [hf]
          simp
        · rw [if_neg (by rw [h]; decide), if_pos h]
          refine List.mem_append_right _ ?_
          rw [hf]
          simp
    · constructor
      · intro f hf
        exact (ih (handleTaskRow acc x) hr2).1 f hf
      · intro f hf
        exact (ih (handleTaskRow acc x) hr2).2 f hf

theorem foldl_handle_notif_count (rows : List DbTaskRow) (acc : RecoveryOut) (c : Int) :
    ((rows.foldl handleTaskRow acc).notifications.countP (fun n => decide (n.1 = c)))
      = acc.notifications.countP (fun n => decide (n.1 = c))
        + (rows.filter (fun q2 => (decide (q2.status = "processing")
            || decide (q2.status = "queued")) && decide (q2.chat_id = c))).length := by
  induction rows generalizing acc with
  | nil => simp
  | cons x rows ih =>
    rw [List.foldl_cons, ih (handleTaskRow acc x), List.filter_cons]
    by_cases hp : x.status = "processing"
    · have hh : (handleTaskRow acc x).notifications
          = acc.notifications ++ [(x.chat_id, "interrupted")] := by
        unfold handleTaskRow
        rw [if_pos hp]
      rw [hh, List.countP_append]
      by_cases hc : x.chat_id = c
      · rw [if_pos (by simp [hp, hc])]
        have h1 : ([(x.chat_id, "interrupted")].countP (fun n => decide (n.1 = c)))
            = 1 := by simp [hc]
        rw [h1, List.length_cons]
        omega
      · rw [if_neg (by simp [hc])]
        have h0 : ([(x.chat_id, "interrupted")].countP (fun n => decide (n.1 = c)))
            = 0 := by simp [hc]
        rw [h0]
        omega
    · by_cases hq : x.status = "queued"
      · have hh : (handleTaskRow acc x).notifications
            = acc.notifications ++ [(x.chat_id, "queue_reset")] := by
          unfold handleTaskRow
          rw [if_neg hp, if_pos hq]
        rw [hh, List.countP_append]
        by_cases hc : x.chat_id = c
        · rw [if_pos (by simp [hp, hq, hc])]
          have h1 : ([(x.chat_id, "queue_reset")].countP (fun n => decide (n.1 = c)))
              = 1 := by simp [hc]
          rw [h1, List.length_cons]
          omega
        · rw [if_neg (by simp [hc])]
          have h0 : ([(x.chat_id, "queue_reset")].countP (fun n => decide (n.1 = c)))
              = 0 := by simp [hc]
          rw [h0]
          omega
      · have hh : handleTaskRow acc x = acc := by
          unfold handleTaskRow
          rw [if_neg hp, if_neg hq]
        rw [hh, if_neg (by simp [hp, hq])]

/-- C3 amended.  For every durable tasks row with status processing or queued that is
still within the 24 h TTL at startup, one run of the recovery pass over the tasks
table deletes the row, deletes its referenced file and thumbnail, and sends one
notification to the owning chat per such row (the notification count to a chat equals
the number of its non-expired processing-or-queued rows); rows older than the TTL are
instead removed by the expiry purge without any notification. -/
theorem c3_recovery_tasks (now : Int) (table : List DbTaskRow) (r : DbTaskRow)
    (hmem : r ∈ table) (hst : r.status = "processing" ∨ r.status = "queued")
    (hexp : r.created_at > now - TASK_TTL_SECONDS) :
    (∀ q ∈ (restore_tasks now table).table, q.id ≠ r.id)
    ∧ (∀ f, r.filename = some f → f ∈ (restore_tasks now table).deletedFiles)
    ∧ (∀ f, r.thumbnail_path = some f → f ∈ (restore_tasks now table).deletedFiles)
    ∧ ((restore_tasks now table).notifications.countP
        (fun n => decide (n.1 = r.chat_id))
      = ((get_all_tasks now (delete_expired_tasks now table).2).filter
          (fun q2 => (decide (q2.status = "processing")
            || decide (q2.status = "queued"))
            && decide (q2.chat_id = r.chat_id))).length) := by
  have hr2 : r ∈ (delete_expired_tasks now table).2 := by
    show r ∈ table.filter (fun q2 => decide (q2.created_at > now - TASK_TTL_SECONDS))
    exact List.mem_filter.mpr ⟨hmem, by simp only [decide_eq_true_eq]; omega⟩
  have hrows : r ∈ get_all_tasks now (delete_expired_tasks now table).2 := by
    unfold get_all_tasks
    exact List.mem_filter.mpr ⟨hr2, by simp only [decide_eq_true_eq]; omega⟩
  refine ⟨?_, ?_, ?_, ?_⟩
  · exact foldl_handle_table_id _ _ r hrows hst
  · exact (foldl_handle_files_mem _ _ r hrows hst).1
  · exact (foldl_handle_files_mem _ _ r hrows hst).2
  · show (((get_all_tasks now (delete_expired_tasks now table).2).foldl handleTaskRow
        { table := (delete_expired_tasks now table).2,
          deletedFiles := (delete_expired_tasks now table).1,
          notifications := [] }).notifications.countP
        (fun n => decide (n.1 = r.chat_id))) = _
    rw [foldl_handle_notif_count]
    simp

/-- C3 counterexample: a durable tasks row with status processing and a referenced
filename that is older than the 24 h TTL is present at startup, yet the recovery run
removes it through the expiry purge and sends zero notifications, not exactly one. -/
theorem c3_counterexample :
    (restore_tasks 86400 [⟨"t1", "convert", 7, 1, "uf", "processing", none, none,
        some "f.mp4", none, some "mp3", 0⟩]).notifications = []
    ∧ (restore_tasks 86400 [⟨"t1", "convert", 7, 1, "uf", "processing", none, none,
        some "f.mp4", none, some "mp3", 0⟩]).table = []
    ∧ "f.mp4" ∈ (restore_tasks 86400 [⟨"t1", "convert", 7, 1, "uf", "processing",
        none, none, some "f.mp4", none, some "mp3", 0⟩]).deletedFiles := by
  refine ⟨by decide, by decide, by decide⟩

/-- Witness for c3_recovery_tasks: one non-expired processing row with a file and a
thumbnail gets its row deleted, both files removed, and exactly one notification. -/
theorem c3_recovery_tasks_witness :
    ((∀ q ∈ (restore_tasks 0 [⟨"t1", "convert", 7, 1, "uf", "processing", none, none,
          some "f.mp4", some "th.jpg", some "mp3", 50⟩]).table, q.id ≠ "t1")
      ∧ (∀ f, (some "f.mp4" : Option String) = some f
          → f ∈ (restore_tasks 0 [⟨"t1", "convert", 7, 1, "uf", "processing", none,
              none, some "f.mp4", some "th.jpg", some "mp3", 50⟩]).deletedFiles)
      ∧ (∀ f, (some "th.jpg" : Option String) = some f
          → f ∈ (restore_tasks 0 [⟨"t1", "convert", 7, 1, "uf", "processing", none,
              none, some "f.mp4", some "th.jpg", some "mp3", 50⟩]).deletedFiles)
      ∧ ((restore_tasks 0 [⟨"t1", "convert", 7, 1, "uf", "processing", none, none,
            some "f.mp4", some "th.jpg", some "mp3", 50⟩]).notifications.countP
          (fun n => decide (n.1 = 7))
        = ((get_all_tasks 0 (delete_expired_tasks 0 [⟨"t1", "convert", 7, 1, "uf",
              "processing", none, none, some "f.mp4", some "th.jpg", some "mp3",
              50⟩]).2).filter
            (fun q2 => (decide (q2.status = "processing")
              || decide (q2.status = "queued")) && decide (q2.chat_id = 7))).length))
    ∧ ((get_all_tasks 0 (delete_expired_tasks 0 [⟨"t1", "convert", 7, 1, "uf",
          "processing", none, none, some "f.mp4", some "th.jpg", some "mp3",
          50⟩]).2).filter
        (fun q2 => (decide (q2.status = "processing")
          || decide (q2.status = "queued")) && decide (q2.chat_id = 7))).length = 1 :=
  ⟨c3_recovery_tasks 0 [⟨"t1", "convert", 7, 1, "uf", "processing", none, none,
      some "f.mp4", some "th.jpg", some "mp3", 50⟩]
    ⟨"t1", "convert", 7, 1, "uf", "processing", none, none, some "f.mp4",
      some "th.jpg", some "mp3", 50⟩
    (by decide) (by decide) (by decide), by decide⟩

end TgDl
